import Mathlib

/-!
# ecell: elementary cellular automaton generator

A shallow embedding of `ecell.c` and a verification of its transition engine
(`applyrule`, `nextgen`) and of the driver in `main`.

Conventions of the embedding.

* `unsigned int` is a `Nat` reduced modulo `2 ^ 32` after every operation that
  can leave the range, `unsigned char` a `Nat` reduced modulo `2 ^ 8`.
* `int` arithmetic is two's complement: the bit pattern of a left shift is
  reduced modulo `2 ^ 32` (this is what `7 << 29` in `nextgen` relies on).
* A shift whose amount is negative or at least the width of `int` has no
  defined result; `applyrule` returns `none` there and `nextgen` propagates it.
* `char` is signed (values `-128 .. 127`).
-/

namespace Ecell

/-! ## Global state -/

/-- The global variables of `ecell.c`.  `OUTFILE` is `none` for the null
pointer and carries the name it was opened under otherwise. -/
structure Globals where
  POP : Nat
  RULE : Nat
  NUM_GEN : Nat
  OUTFILE : Option (List Char)
  OUTFILENAME : Option (List Char)
  ARGUMENTS : Nat
  deriving DecidableEq, Repr

/-- Static storage is zero-initialised. -/
def Globals.init : Globals :=
  { POP := 0, RULE := 0, NUM_GEN := 0, OUTFILE := none, OUTFILENAME := none, ARGUMENTS := 0 }

/-! ## Machine integers -/

/-- Reduction of a value to `unsigned int`. -/
def u32 (n : Nat) : Nat := n % 2 ^ 32

/-- Reduction of a value to `unsigned char`. -/
def u8 (n : Nat) : Nat := n % 2 ^ 8

/-- Conversion of an unsigned value to (signed) `char`. -/
def toChar (n : Nat) : Int :=
  if n % 256 < 128 then ((n % 256 : Nat) : Int) else ((n % 256 : Nat) : Int) - 256

/-- Bit `k` of `x`, as the number 0 or 1. -/
def bitAt (x k : Nat) : Nat := x / 2 ^ k % 2

/-! ## `applyrule` -/

/-- `applyrule(view)`: `(RULE & (1 << view)) == (1 << view) ? 1 : 0`.
The shift is defined for `0 ≤ view < 32` only. -/
def applyrule (RULE : Nat) (view : Int) : Option Nat :=
  if 0 ≤ view ∧ view < 32 then
    if RULE &&& u32 (1 <<< view.toNat) = u32 (1 <<< view.toNat) then some 1 else some 0
  else
    none

/-! ## `nextgen` -/

/-- The neighbourhood `view` computed by the loop body of `nextgen` for cell `i`,
before its conversion to `char`. -/
def viewOf (POP i : Nat) : Nat :=
  if i = 31 then
    let tmppop := POP &&& 3221225473
    u32 (u32 (tmppop <<< 2) + (tmppop >>> 30))
  else if i = 0 then
    let tmppop := POP &&& 2147483651
    u32 (u32 (tmppop <<< 1) + (tmppop >>> 31))
  else
    let tmppop := POP &&& u32 (7 <<< (i - 1))
    tmppop >>> (i - 1)

/-- One iteration of the `for` loop of `nextgen`, for cell `i`: the new value of
`newpop`, or `none` when `applyrule` has no defined result. -/
def nextgenBody (POP RULE i newpop : Nat) : Option Nat :=
  if i = 31 then
    (applyrule RULE (toChar (viewOf POP i))).map fun b => newpop ||| u32 (b <<< 31)
  else if i = 0 then
    (applyrule RULE (toChar (viewOf POP i))).map fun b => newpop ||| b
  else
    (applyrule RULE (toChar (viewOf POP i))).map fun b => newpop ||| u32 (b <<< i)

/-- The loop `for (i = 31; i >= 0; i--)` of `nextgen`, with `n = i + 1` cells
still to visit. -/
def nextgenLoop (POP RULE : Nat) : Nat → Nat → Option Nat
  | 0, newpop => some newpop
  | i + 1, newpop => (nextgenBody POP RULE i newpop).bind (nextgenLoop POP RULE i)

/-- `nextgen()`: computes `newpop` from `POP` and `RULE` and stores it in `POP`. -/
def nextgen (g : Globals) : Option Globals :=
  (nextgenLoop g.POP g.RULE 32 0).map fun newpop => { g with POP := newpop }

/-! ## Output -/

/-- The diagnostics `main` prints before the help text. -/
inductive Msg where
  | tooManyRule
  | tooManyPop
  | tooManyQuiet
  | tooManyVerbose
  | tooManyOutfile
  | tooManyNumGen
  | notEnough
  | badRule
  | badPop
  | badOutfile
  | badNumGen
  | badArguments
  | quietAndVerbose
  deriving DecidableEq, Repr

/-- What the program does that is visible from outside, in order. -/
inductive Event where
  /-- A diagnostic `printf` of `main`. -/
  | say (m : Msg)
  /-- A call of `printhelp()`. -/
  | help
  /-- The verbose-mode header of `main`: the three parameters, and whether they
  were also written to the output file. -/
  | banner (POP RULE NUM_GEN : Nat) (toFile : Bool)
  /-- A call of `printpop()`: the value of `POP`, whether it is drawn on the
  command line, and whether it is written to the output file. -/
  | pop (POP : Nat) (shown logged : Bool)
  deriving DecidableEq, Repr

/-- `printpop()`: the row is drawn unless in quiet mode (`ARGUMENTS % 8 <= 3`)
and written to the file when one was given (`ARGUMENTS % 32 > 15`). -/
def printpop (g : Globals) : Event :=
  Event.pop g.POP (decide (g.ARGUMENTS % 8 ≤ 3)) (decide (g.ARGUMENTS % 32 > 15))

/-! ## `readparam` -/

/-- The `while` loop of `readparam` on the characters not yet read, with the
current `*container` and index `i`.  Returns the return value of `readparam`
and the final `*container`. -/
def readparamLoop : List Char → Nat → Nat → Int × Nat
  | [], container, i => (if i = 0 then -1 else 0, container)
  | c :: rest, container, i =>
    if '0'.toNat ≤ c.toNat ∧ c.toNat ≤ '9'.toNat then
      if container > 429496729 ∨ (container = 429496729 ∧ c.toNat > '5'.toNat) then
        (-1, container)
      else
        readparamLoop rest (u32 (10 * container + (c.toNat - '0'.toNat))) (i + 1)
    else
      (if i = 0 then -1 else 0, container)

/-- `readparam(parameter, container)`: the return value and the value left in
`*container`.  The end of the list is the terminating NUL; characters are
compared by their codes, as C compares `char` values. -/
def readparam (parameter : List Char) : Int × Nat :=
  readparamLoop parameter 0 0

/-! ## `main` -/

/-- What `main` takes from its environment besides `argv`: whether `fopen`
succeeds on a name, and the results of the three calls of `rand()`. -/
structure Env where
  fopenOk : List Char → Bool
  rand1 : Nat
  rand2 : Nat
  rand3 : Nat

/-- Character `k` of a C string; past the end it is the terminating NUL. -/
def charAt (s : List Char) (k : Nat) : Char := s.getD k (Char.ofNat 0)

/-- How a run of `main`, or of a part of it, ends. -/
inductive Outcome where
  /-- Still running: the part fell through to the code after it. -/
  | next (g : Globals) (out : List Event)
  /-- A `return code;` of `main`. -/
  | exit (code : Int) (g : Globals) (out : List Event)
  /-- No defined behaviour: `argv[argc]` (a null pointer) was read as a string, or
  a shift amount was out of range. -/
  | fault (g : Globals) (out : List Event)
  deriving DecidableEq, Repr

/-- `ARGUMENTS += k` on the `unsigned char` bit mask of the options seen. -/
def addFlag (g : Globals) (k : Nat) : Globals :=
  { g with ARGUMENTS := u8 (g.ARGUMENTS + k) }

/-- The argument loop `for (i = 1; i < argc; i++)` of `main` on the arguments
`argv[i], ..., argv[argc - 1]`. -/
def argLoop (env : Env) : List (List Char) → Globals → List Event → Outcome
  | [], g, out => Outcome.next g out
  | a :: rest, g, out =>
    if charAt a 0 ≠ '-' then
      Outcome.exit 1 g (out ++ [Event.help])
    else if charAt a 1 = 'r' then
      if g.ARGUMENTS % 2 > 0 then
        Outcome.exit 1 g (out ++ [Event.say Msg.tooManyRule, Event.help])
      else
        match rest with
        | [] => Outcome.exit 1 (addFlag g 1) (out ++ [Event.say Msg.notEnough, Event.help])
        | p :: rest1 =>
          if (readparam p).1 = -1 ∨ (readparam p).2 > 255 then
            Outcome.exit 1 (addFlag g 1) (out ++ [Event.say Msg.badRule, Event.help])
          else
            argLoop env rest1 { addFlag g 1 with RULE := u8 (readparam p).2 } out
    else if charAt a 1 = 'p' then
      if g.ARGUMENTS % 4 > 1 then
        Outcome.exit 1 g (out ++ [Event.say Msg.tooManyPop, Event.help])
      else
        match rest with
        | [] => Outcome.exit 1 (addFlag g 2) (out ++ [Event.say Msg.notEnough, Event.help])
        | p :: rest1 =>
          if (readparam p).1 = -1 then
            Outcome.exit 1 (addFlag g 2) (out ++ [Event.say Msg.badPop, Event.help])
          else
            argLoop env rest1 { addFlag g 2 with POP := (readparam p).2 } out
    else if charAt a 1 = 'q' then
      if g.ARGUMENTS % 8 > 3 then
        Outcome.exit 1 g (out ++ [Event.say Msg.tooManyQuiet, Event.help])
      else
        argLoop env rest (addFlag g 4) out
    else if charAt a 1 = 'v' then
      if g.ARGUMENTS % 16 > 7 then
        Outcome.exit 1 g (out ++ [Event.say Msg.tooManyVerbose, Event.help])
      else
        argLoop env rest (addFlag g 8) out
    else if charAt a 1 = 'o' then
      if g.ARGUMENTS % 32 > 15 then
        Outcome.exit 1 g (out ++ [Event.say Msg.tooManyOutfile, Event.help])
      else
        match rest with
        | [] => Outcome.exit 1 (addFlag g 16) (out ++ [Event.say Msg.notEnough, Event.help])
        | p :: rest1 =>
          if env.fopenOk p = false then
            Outcome.exit 1 (addFlag g 16) (out ++ [Event.say Msg.badOutfile, Event.help])
          else
            argLoop env rest1 { addFlag g 16 with OUTFILE := some p, OUTFILENAME := some p } out
    else if charAt a 1 = 'n' then
      if g.ARGUMENTS % 64 > 31 then
        Outcome.exit 1 g (out ++ [Event.say Msg.tooManyNumGen, Event.help])
      else
        match rest with
        | [] => Outcome.fault (addFlag g 32) out
        | p :: rest1 =>
          if (readparam p).1 = -1 then
            Outcome.exit 1 (addFlag g 32) (out ++ [Event.say Msg.badNumGen, Event.help])
          else
            argLoop env rest1 { addFlag g 32 with NUM_GEN := (readparam p).2 } out
    else if charAt a 1 ≠ 'h' then
      Outcome.exit 0 g (out ++ [Event.say Msg.badArguments, Event.help])
    else
      Outcome.exit 0 g (out ++ [Event.help])

/-- The random defaults of `main` for what the arguments left unset. -/
def setDefaults (env : Env) (g : Globals) : Globals :=
  let g1 := if g.ARGUMENTS % 4 ≤ 1 then
      { g with POP := u32 (u32 ((env.rand1 % 65535) <<< 16) + env.rand2 % 65535) }
    else g
  let g2 := if g1.ARGUMENTS % 2 ≤ 0 then { g1 with RULE := u8 (env.rand3 % 255) } else g1
  if g2.ARGUMENTS % 64 ≤ 31 then { g2 with NUM_GEN := 31 } else g2

/-- The verbose-mode header of `main`. -/
def verboseHeader (g : Globals) : List Event :=
  if g.ARGUMENTS % 16 > 7 then
    [Event.banner g.POP g.RULE g.NUM_GEN (decide (g.ARGUMENTS % 32 > 15))]
  else []

/-- The loop `for (i = 0; i < NUM_GEN; i++) { nextgen(); printpop(); }` of `main`,
entered with counter `i`.  The test compares `i` as an `unsigned int`; its bit
pattern counts up from 0 and stays below `NUM_GEN`, so it is a `Nat` here.  The
loop terminates because `nextgen` leaves `NUM_GEN` as it is. -/
def runLoop (i : Nat) (g : Globals) (out : List Event) : Outcome :=
  if i < g.NUM_GEN then
    if hs : (nextgen g).isSome then
      runLoop (i + 1) ((nextgen g).get hs) (out ++ [printpop ((nextgen g).get hs)])
    else
      Outcome.fault g out
  else
    Outcome.next g out
termination_by g.NUM_GEN - i
decreasing_by
  have e : ((nextgen g).get hs).NUM_GEN = g.NUM_GEN := by
    have h2 : ∀ r, nextgen g = some r → r.NUM_GEN = g.NUM_GEN := by
      intro r h
      unfold nextgen at h
      cases hl : nextgenLoop g.POP g.RULE 32 0 with
      | none => rw [hl] at h; cases h
      | some newpop => rw [hl] at h; cases h; rfl
    exact h2 _ (Option.some_get hs).symm
  omega

/-- The generation part of `main`: `printpop()`, then the run loop. -/
def generate (g : Globals) (out : List Event) : Outcome :=
  runLoop 0 g (out ++ [printpop g])

/-- `main(argc, argv)` on the arguments `argv[1], ..., argv[argc - 1]`. -/
def main (env : Env) (args : List (List Char)) : Outcome :=
  match argLoop env args { Globals.init with ARGUMENTS := 0 } [] with
  | Outcome.next g out =>
    if g.ARGUMENTS % 16 > 7 ∧ g.ARGUMENTS % 8 > 3 then
      Outcome.exit 1 g (out ++ [Event.say Msg.quietAndVerbose, Event.help])
    else
      let g1 := setDefaults env g
      match generate g1 (out ++ verboseHeader g1) with
      | Outcome.next g2 out2 => Outcome.exit 0 g2 out2
      | r => r
  | r => r

/-! ## Derived notions used in the statements -/

/-- The population `nextgen` stores in `POP` (0 if the loop had no result). -/
def stepPOP (RULE POP : Nat) : Nat := (nextgenLoop POP RULE 32 0).getD 0

/-- The events of an outcome. -/
def Outcome.events : Outcome → List Event
  | Outcome.next _ out => out
  | Outcome.exit _ _ out => out
  | Outcome.fault _ out => out

/-- Whether an event is a call of `printpop()`. -/
def Event.isPop : Event → Bool
  | Event.pop _ _ _ => true
  | _ => false

/-- The number of populations emitted (calls of `printpop()`) in a trace. -/
def emitted (out : List Event) : Nat := (out.filter Event.isPop).length

/-- A decimal numeral: a non-empty string of decimal digits. -/
def isNumeral (s : List Char) : Bool :=
  !s.isEmpty && s.all fun c => decide ('0'.toNat ≤ c.toNat ∧ c.toNat ≤ '9'.toNat)

/-- The number a string of decimal digits denotes, continuing from `acc`. -/
def numeralValueFrom (acc : Nat) (s : List Char) : Nat :=
  s.foldl (fun a c => 10 * a + (c.toNat - '0'.toNat)) acc

/-- The number a decimal numeral denotes. -/
def numeralValue (s : List Char) : Nat := numeralValueFrom 0 s

/-- The number whose bit `i` is `f i` for `i < n`, and whose other bits are 0. -/
def ofBits (f : Nat → Bool) : Nat → Nat
  | 0 => 0
  | n + 1 => ofBits f n + (if f n then 2 ^ n else 0)

/-- Rotation of a 32-bit word to the left by `k` places. -/
def rotl32 (x k : Nat) : Nat := u32 (x <<< k) ||| (x >>> (32 - k))

/-- Rotation of a 32-bit word to the right by `k` places. -/
def rotr32 (x k : Nat) : Nat := (x >>> k) ||| u32 (x <<< (32 - k))

/-- The 32-bit word with the bits of `x` in reverse order: bit `i` of the result
is bit `31 - i` of `x`. -/
def rev32 (x : Nat) : Nat := ofBits (fun i => x.testBit (31 - i)) 32

/-- The mirrored rule: bit `4a + 2b + c` of the result is bit `4c + 2b + a` of
`r`. -/
def mirrorRule (r : Nat) : Nat :=
  ofBits (fun v => r.testBit (4 * (v % 2) + 2 * (v / 2 % 2) + v / 4 % 2)) 8

/-- The argument loop comes to the argument `a` of `args` as an option: it has
read the arguments before `a` without leaving `main`, and none of them is an
option still waiting for its parameter. -/
def ReadsAsOption (env : Env) (args : List (List Char)) (a : List Char) : Prop :=
  ∃ pre post g out, args = pre ++ a :: post ∧
    argLoop env pre { Globals.init with ARGUMENTS := 0 } [] = Outcome.next g out

/-! ## Bit-level facts -/

theorem bitAt_le_one (x k : Nat) : bitAt x k ≤ 1 := by
  unfold bitAt; omega

theorem testBit_eq_bitAt (x k : Nat) : x.testBit k = decide (bitAt x k = 1) := by
  unfold bitAt; exact Nat.testBit_to_div_mod

theorem bitAt_congr {x y j k : Nat} (h : x.testBit j = y.testBit k) : bitAt x j = bitAt y k := by
  rw [testBit_eq_bitAt, testBit_eq_bitAt] at h
  have hx := bitAt_le_one x j
  have hy := bitAt_le_one y k
  have h' : bitAt x j = 1 ↔ bitAt y k = 1 := by simpa using h
  omega

theorem bitAt_of_testBit_true {x k : Nat} (h : x.testBit k = true) : bitAt x k = 1 := by
  rw [testBit_eq_bitAt] at h; simpa using h

theorem bitAt_of_testBit_false {x k : Nat} (h : x.testBit k = false) : bitAt x k = 0 := by
  rw [testBit_eq_bitAt] at h
  have := bitAt_le_one x k
  have h' : ¬ bitAt x k = 1 := by simpa using h
  omega

theorem eq_bits_of_lt_eight (v : Nat) (h : v < 8) :
    v = 4 * bitAt v 2 + 2 * bitAt v 1 + bitAt v 0 := by
  interval_cases v <;> rfl

theorem testBit_seven (k : Nat) : Nat.testBit 7 k = decide (k < 3) := by
  have h : (7 : Nat) = 2 ^ 3 - 1 := by norm_num
  rw [h, Nat.testBit_two_pow_sub_one]

theorem testBit_maskHi (k : Nat) :
    Nat.testBit 3221225473 k = decide (k = 0 ∨ k = 30 ∨ k = 31) := by
  by_cases hk : k < 32
  · interval_cases k <;> rfl
  · have h1 : (3221225473 : Nat) < 2 ^ k :=
      lt_of_lt_of_le (by norm_num) (Nat.pow_le_pow_right (by norm_num) (Nat.le_of_not_lt hk))
    rw [Nat.testBit_lt_two_pow h1]
    symm
    simp
    omega

theorem testBit_maskLo (k : Nat) :
    Nat.testBit 2147483651 k = decide (k = 0 ∨ k = 1 ∨ k = 31) := by
  by_cases hk : k < 32
  · interval_cases k <;> rfl
  · have h1 : (2147483651 : Nat) < 2 ^ k :=
      lt_of_lt_of_le (by norm_num) (Nat.pow_le_pow_right (by norm_num) (Nat.le_of_not_lt hk))
    rw [Nat.testBit_lt_two_pow h1]
    symm
    simp
    omega

/-- Bits of `(t << s) + (t >> r)` in 32-bit arithmetic when `s + r = 32`: the
sum is a rotation of `t` to the left by `s`. -/
theorem edge_sum_testBit (t s r k : Nat) (ht : t < 2 ^ 32) (hs : s + r = 32) :
    (u32 (u32 (t <<< s) + (t >>> r))).testBit k
      = (decide (k < s) && t.testBit (r + k) || decide (s ≤ k ∧ k < 32) && t.testBit (k - s)) := by
  have hr : t >>> r < 2 ^ s := by
    rw [Nat.shiftRight_eq_div_pow]
    apply Nat.div_lt_of_lt_mul
    rw [← pow_add, Nat.add_comm, hs]; exact ht
  have hl : u32 (t <<< s) = 2 ^ s * (t % 2 ^ r) := by
    have : (2:Nat) ^ 32 = 2 ^ s * 2 ^ r := by rw [← pow_add, hs]
    rw [u32, Nat.shiftLeft_eq, Nat.mul_comm, this, Nat.mul_mod_mul_left]
  have hlt : 2 ^ s * (t % 2 ^ r) + t >>> r < 2 ^ 32 := by
    have h1 : t % 2 ^ r < 2 ^ r := Nat.mod_lt _ (by positivity)
    have h2 : (2:Nat) ^ 32 = 2 ^ s * 2 ^ r := by rw [← pow_add, hs]
    have h3 : 2 ^ s * (t % 2 ^ r) + 2 ^ s ≤ 2 ^ s * 2 ^ r := by
      have : 2 ^ s * (t % 2 ^ r + 1) ≤ 2 ^ s * 2 ^ r := Nat.mul_le_mul_left _ h1
      rw [Nat.mul_add, Nat.mul_one] at this
      exact this
    omega
  rw [hl, u32, Nat.mod_eq_of_lt hlt, Nat.mul_add_lt_is_or hr, Nat.testBit_or,
    Nat.testBit_mul_pow_two, Nat.testBit_mod_two_pow, Nat.testBit_shiftRight]
  by_cases h1 : k < s
  · have : ¬ (k ≥ s) := by omega
    simp [h1, this]
  · have h2 : k ≥ s := by omega
    have h3 : t.testBit (r + k) = false :=
      Nat.testBit_lt_two_pow (lt_of_lt_of_le ht (Nat.pow_le_pow_right (by norm_num) (by omega)))
    by_cases h4 : k < 32
    · have : k - s < r := by omega
      simp [h1, h2, h3, h4, this]
    · have : ¬ (k - s < r) := by omega
      simp [h1, h2, h3, h4, this]

/-! ## The neighbourhood value -/

theorem viewOf_mid_testBit (POP i k : Nat) (h1 : 1 ≤ i) (h2 : i ≤ 30) :
    (viewOf POP i).testBit k = (decide (k < 3) && POP.testBit (i - 1 + k)) := by
  have e1 : ¬ i = 31 := by omega
  have e2 : ¬ i = 0 := by omega
  simp only [viewOf, e1, e2, if_false, u32, Nat.testBit_shiftRight, Nat.testBit_and,
    Nat.testBit_mod_two_pow, Nat.testBit_shiftLeft, testBit_seven]
  by_cases hk : k < 3
  · have a1 : i - 1 + k < 32 := by omega
    have a2 : i - 1 + k ≥ i - 1 := by omega
    have a3 : i - 1 + k - (i - 1) < 3 := by omega
    simp [hk, a1, a2, a3]
  · have a3 : ¬ (i - 1 + k - (i - 1) < 3) := by omega
    simp [hk, a3]

theorem land_lt_word (POP m : Nat) (hm : m < 2 ^ 32) : POP &&& m < 2 ^ 32 :=
  lt_of_le_of_lt Nat.and_le_right hm

theorem viewOf_hi_testBit (POP k : Nat) :
    (viewOf POP 31).testBit k = (decide (k < 3) && POP.testBit ((31 + 31 + k) % 32)) := by
  have ht : POP &&& 3221225473 < 2 ^ 32 := land_lt_word _ _ (by norm_num)
  simp only [viewOf, if_true]
  rw [edge_sum_testBit _ 2 30 k ht rfl]
  simp only [Nat.testBit_and, testBit_maskHi]
  rcases Nat.lt_or_ge k 3 with hk | hk
  · interval_cases k <;> simp
  · have a1 : ¬ k < 2 := by omega
    have a2 : ¬ k < 3 := by omega
    by_cases h4 : k < 32
    · have a3 : ¬ (k - 2 = 0 ∨ k - 2 = 30 ∨ k - 2 = 31) := by omega
      rw [decide_eq_false a3]
      simp [a1, a2]
    · have a3 : ¬ (2 ≤ k ∧ k < 32) := by omega
      rw [decide_eq_false a3]
      simp [a1, a2]

theorem viewOf_lo_testBit (POP k : Nat) :
    (viewOf POP 0).testBit k = (decide (k < 3) && POP.testBit ((0 + 31 + k) % 32)) := by
  have ht : POP &&& 2147483651 < 2 ^ 32 := land_lt_word _ _ (by norm_num)
  have e : ¬ (0 = 31) := by decide
  simp only [viewOf, e, if_false, if_true]
  rw [edge_sum_testBit _ 1 31 k ht rfl]
  simp only [Nat.testBit_and, testBit_maskLo]
  rcases Nat.lt_or_ge k 3 with hk | hk
  · interval_cases k <;> simp
  · have a1 : ¬ k < 1 := by omega
    have a2 : ¬ k < 3 := by omega
    by_cases h4 : k < 32
    · have a3 : ¬ (k - 1 = 0 ∨ k - 1 = 1 ∨ k - 1 = 31) := by omega
      rw [decide_eq_false a3]
      simp [a1, a2]
    · have a3 : ¬ (1 ≤ k ∧ k < 32) := by omega
      rw [decide_eq_false a3]
      simp [a1, a2]

/-- Bit `k` of the neighbourhood value of cell `i`: bit 0 is the cell below `i`
on the ring, bit 1 the cell itself, bit 2 the cell above. -/
theorem viewOf_testBit (POP i k : Nat) (hi : i < 32) :
    (viewOf POP i).testBit k = (decide (k < 3) && POP.testBit ((i + 31 + k) % 32)) := by
  rcases Nat.eq_zero_or_pos i with h0 | h0
  · subst h0; exact viewOf_lo_testBit POP k
  · rcases Nat.lt_or_ge i 31 with h1 | h1
    · rw [viewOf_mid_testBit POP i k h0 (by omega)]
      by_cases hk : k < 3
      · have : (i + 31 + k) % 32 = i - 1 + k := by omega
        rw [this]
      · simp [hk]
    · have : i = 31 := by omega
      subst this; exact viewOf_hi_testBit POP k

theorem viewOf_lt (POP i : Nat) (hi : i < 32) : viewOf POP i < 8 := by
  have h : viewOf POP i < 2 ^ 3 := by
    apply Nat.lt_pow_two_of_testBit
    intro k hk
    rw [viewOf_testBit POP i k hi]
    have : ¬ k < 3 := by omega
    simp [this]
  simpa using h

/-- The neighbourhood value is `left * 4 + self * 2 + right` on the ring. -/
theorem viewOf_eq (POP i : Nat) (hi : i < 32) :
    viewOf POP i
      = 4 * bitAt POP ((i + 1) % 32) + 2 * bitAt POP i + bitAt POP ((i + 31) % 32) := by
  have h := eq_bits_of_lt_eight _ (viewOf_lt POP i hi)
  have b2 : bitAt (viewOf POP i) 2 = bitAt POP ((i + 1) % 32) := by
    apply bitAt_congr
    rw [viewOf_testBit POP i 2 hi]
    have : (i + 31 + 2) % 32 = (i + 1) % 32 := by omega
    simp [this]
  have b1 : bitAt (viewOf POP i) 1 = bitAt POP i := by
    apply bitAt_congr
    rw [viewOf_testBit POP i 1 hi]
    have : (i + 31 + 1) % 32 = i := by omega
    simp [this]
  have b0 : bitAt (viewOf POP i) 0 = bitAt POP ((i + 31) % 32) := by
    apply bitAt_congr
    rw [viewOf_testBit POP i 0 hi]
    simp
  rw [b2, b1, b0] at h
  exact h

/-! ## `applyrule` and the loop of `nextgen` -/

theorem toChar_of_lt (v : Nat) (h : v < 128) : toChar v = (v : Int) := by
  unfold toChar
  have h1 : v % 256 = v := Nat.mod_eq_of_lt (by omega)
  rw [h1, if_pos h]

/-- For a shift amount inside the word, `applyrule` returns the addressed bit. -/
theorem applyrule_of_lt (RULE v : Nat) (hv : v < 32) :
    applyrule RULE (v : Int) = some (bitAt RULE v) := by
  have h1 : (0 : Int) ≤ (v : Int) ∧ (v : Int) < 32 := by omega
  have h2 : u32 (1 <<< v) = 2 ^ v := by
    rw [u32, Nat.shiftLeft_eq, Nat.one_mul]
    exact Nat.mod_eq_of_lt (Nat.pow_lt_pow_right (by norm_num) hv)
  unfold applyrule
  rw [if_pos h1, Int.toNat_ofNat, h2, Nat.and_two_pow]
  have hp : 0 < 2 ^ v := by positivity
  cases hb : RULE.testBit v with
  | true =>
    rw [bitAt_of_testBit_true hb]
    simp
  | false =>
    rw [bitAt_of_testBit_false hb]
    have : ¬ (0 = 2 ^ v) := by omega
    simp [this]

theorem testBit_bit_mul (b i j : Nat) (hb : b ≤ 1) :
    (b * 2 ^ i).testBit j = (decide (j = i) && decide (b = 1)) := by
  rcases Nat.le_one_iff_eq_zero_or_eq_one.mp hb with h | h
  · subst h; simp
  · subst h
    rw [Nat.one_mul, Nat.testBit_two_pow]
    by_cases hji : j = i
    · subst hji; simp
    · have : ¬ i = j := fun e => hji e.symm
      simp [hji, this]

/-- One iteration of the loop sets bit `i` of `newpop` from the rule. -/
theorem nextgenBody_eq (POP RULE i newpop : Nat) (hi : i < 32) :
    nextgenBody POP RULE i newpop = some (newpop ||| bitAt RULE (viewOf POP i) * 2 ^ i) := by
  have hv := viewOf_lt POP i hi
  have ha : applyrule RULE (toChar (viewOf POP i)) = some (bitAt RULE (viewOf POP i)) := by
    rw [toChar_of_lt _ (by omega)]
    exact applyrule_of_lt RULE _ (by omega)
  have hb := bitAt_le_one RULE (viewOf POP i)
  have hs : ∀ k, k < 32 → u32 (bitAt RULE (viewOf POP i) <<< k)
      = bitAt RULE (viewOf POP i) * 2 ^ k := by
    intro k hk
    rw [u32, Nat.shiftLeft_eq]
    apply Nat.mod_eq_of_lt
    have : 2 ^ k < 2 ^ 32 := Nat.pow_lt_pow_right (by norm_num) hk
    calc bitAt RULE (viewOf POP i) * 2 ^ k ≤ 1 * 2 ^ k := Nat.mul_le_mul_right _ hb
      _ < 2 ^ 32 := by omega
  unfold nextgenBody
  rw [ha]
  by_cases h31 : i = 31
  · subst h31
    simp only [if_true, Option.map_some']
    rw [hs 31 (by norm_num)]
  · by_cases h0 : i = 0
    · subst h0
      simp
    · simp only [h31, h0, if_false, Option.map_some']
      rw [hs i hi]

/-- The loop of `nextgen` always completes, and sets the bits below `n` from
the rule while keeping what `newpop` already holds. -/
theorem nextgenLoop_spec (POP RULE : Nat) :
    ∀ n, n ≤ 32 → ∀ newpop, ∃ r, nextgenLoop POP RULE n newpop = some r ∧
      ∀ j, r.testBit j
        = (newpop.testBit j || (decide (j < n) && RULE.testBit (viewOf POP j))) := by
  intro n
  induction n with
  | zero =>
    intro _ newpop
    exact ⟨newpop, rfl, fun j => by simp⟩
  | succ i ih =>
    intro hn newpop
    obtain ⟨r, hr, hbits⟩ := ih (by omega) (newpop ||| bitAt RULE (viewOf POP i) * 2 ^ i)
    refine ⟨r, ?_, ?_⟩
    · rw [nextgenLoop, nextgenBody_eq POP RULE i newpop (by omega)]
      exact hr
    · intro j
      rw [hbits j, Nat.testBit_or, testBit_bit_mul _ _ _ (bitAt_le_one _ _)]
      by_cases hji : j = i
      · subst hji
        have h1 : ¬ j < j := by omega
        have h2 : j < j + 1 := by omega
        rw [testBit_eq_bitAt RULE (viewOf POP j)]
        simp [h1, h2]
      · by_cases hlt : j < i
        · have h2 : j < i + 1 := by omega
          simp [hji, hlt, h2]
        · have h2 : ¬ j < i + 1 := by omega
          simp [hji, hlt, h2]

/-- The value `nextgen` stores in `POP`. -/
theorem nextgen_spec (g : Globals) :
    ∃ r, nextgen g = some { g with POP := r } ∧
      ∀ j, r.testBit j = (decide (j < 32) && g.RULE.testBit (viewOf g.POP j)) := by
  obtain ⟨r, hr, hbits⟩ := nextgenLoop_spec g.POP g.RULE 32 (le_refl _) 0
  refine ⟨r, ?_, ?_⟩
  · unfold nextgen; rw [hr]; rfl
  · intro j; rw [hbits j]; simp

/-! ## The transition engine -/

/-- C1. After one call of `nextgen`, bit `i` of the new `POP` is bit `v` of
`RULE`, where `v = 4 * b((i + 1) mod 32) + 2 * b(i) + b((i - 1) mod 32)` and
`b(k)` is bit `k` of the old `POP`; `(i - 1) mod 32` is written `(i + 31) % 32`.
This holds for every value of `POP` and `RULE`, in particular for every 32-bit
population and every 8-bit rule. -/
theorem nextgen_cell_from_previous_ring (g : Globals) (i : Nat) (hi : i < 32) :
    ∃ g1, nextgen g = some g1 ∧
      bitAt g1.POP i
        = bitAt g.RULE
            (4 * bitAt g.POP ((i + 1) % 32) + 2 * bitAt g.POP i + bitAt g.POP ((i + 31) % 32)) := by
  obtain ⟨r, hr, hbits⟩ := nextgen_spec g
  refine ⟨_, hr, ?_⟩
  rw [← viewOf_eq g.POP i hi]
  apply bitAt_congr
  show r.testBit i = _
  rw [hbits i]
  simp [hi]

theorem nextgen_cell_from_previous_ring_witness :
    (0 : Nat) < 32 ∧ ∃ g1, nextgen { Globals.init with POP := 2147483648, RULE := 170 } = some g1 ∧
      bitAt g1.POP 0
        = bitAt 170 (4 * bitAt 2147483648 ((0 + 1) % 32) + 2 * bitAt 2147483648 0
            + bitAt 2147483648 ((0 + 31) % 32)) :=
  ⟨by decide,
   nextgen_cell_from_previous_ring { Globals.init with POP := 2147483648, RULE := 170 } 0
     (by decide)⟩

/-- C2. For every `RULE` (in particular every 8-bit one) and every view in
`0..7`, `applyrule(view)` returns 1 if bit number `view` of `RULE` is set and 0
otherwise; with `RULE = 16` it returns 1 for view 4 and 0 for every other view
in `0..7`. -/
theorem applyrule_returns_rule_bit (RULE : Nat) (view : Int)
    (h0 : 0 ≤ view) (h7 : view ≤ 7) :
    applyrule RULE view = some (if RULE.testBit view.toNat then 1 else 0) ∧
      applyrule 16 view = some (if view = 4 then 1 else 0) := by
  obtain ⟨v, rfl⟩ := Int.eq_ofNat_of_zero_le h0
  have hv : v < 8 := by omega
  have key : ∀ R, applyrule R (v : Int) = some (if R.testBit v then 1 else 0) := by
    intro R
    rw [applyrule_of_lt R v (by omega)]
    cases hb : R.testBit v with
    | true => rw [bitAt_of_testBit_true hb]; rfl
    | false => rw [bitAt_of_testBit_false hb]; rfl
  refine ⟨by simpa using key RULE, ?_⟩
  rw [key 16]
  interval_cases v <;> rfl

theorem applyrule_returns_rule_bit_witness :
    (0 : Int) ≤ 4 ∧ (4 : Int) ≤ 7 ∧
      applyrule 16 4 = some (if Nat.testBit 16 (4 : Int).toNat then 1 else 0) ∧
      applyrule 16 4 = some (if (4 : Int) = 4 then 1 else 0) :=
  ⟨by decide, by decide, applyrule_returns_rule_bit 16 4 (by decide) (by decide)⟩

/-- C3. With `RULE = 0`, one call of `nextgen` turns every population into the
all-dead population 0, and leaves the all-dead population unchanged. -/
theorem nextgen_rule_zero (g : Globals) :
    nextgen { g with RULE := 0 } = some { g with RULE := 0, POP := 0 } ∧
      nextgen { g with RULE := 0, POP := 0 } = some { g with RULE := 0, POP := 0 } := by
  have key : ∀ h : Globals, h.RULE = 0 → nextgen h = some { h with POP := 0 } := by
    intro h hR
    obtain ⟨r, hr, hbits⟩ := nextgen_spec h
    have : r = 0 := by
      apply Nat.eq_of_testBit_eq
      intro j
      rw [hbits j, hR]
      simp
    rw [hr, this]
  exact ⟨key _ rfl, key _ rfl⟩

/-- C4. With the echo rule (bit `v` of `RULE` equal to bit 1 of `v` for every
`v` in `0..7`, which for an 8-bit rule means `RULE = 204`), `nextgen` leaves
every 32-bit population unchanged. -/
theorem nextgen_echo_rule (g : Globals) (hP : g.POP < 2 ^ 32) (hR : g.RULE < 2 ^ 8)
    (hecho : ∀ v, v < 8 → bitAt g.RULE v = bitAt v 1) :
    g.RULE = 204 ∧ nextgen g = some g := by
  have hbit : ∀ v, v < 8 → g.RULE.testBit v = v.testBit 1 := by
    intro v hv
    rw [testBit_eq_bitAt, testBit_eq_bitAt, hecho v hv]
  constructor
  · apply Nat.eq_of_testBit_eq
    intro j
    by_cases hj : j < 8
    · rw [hbit j hj]
      interval_cases j <;> rfl
    · have h1 : g.RULE < 2 ^ j :=
        lt_of_lt_of_le hR (Nat.pow_le_pow_right (by norm_num) (by omega))
      have h2 : (204 : Nat) < 2 ^ j :=
        lt_of_lt_of_le (by norm_num) (Nat.pow_le_pow_right (by norm_num) (Nat.le_of_not_lt hj))
      rw [Nat.testBit_lt_two_pow h1, Nat.testBit_lt_two_pow h2]
  · obtain ⟨r, hr, hbits⟩ := nextgen_spec g
    have : r = g.POP := by
      apply Nat.eq_of_testBit_eq
      intro j
      rw [hbits j]
      by_cases hj : j < 32
      · rw [hbit _ (viewOf_lt g.POP j hj), viewOf_testBit g.POP j 1 hj]
        have : (j + 31 + 1) % 32 = j := by omega
        simp [hj, this]
      · have h1 : g.POP < 2 ^ j :=
          lt_of_lt_of_le hP (Nat.pow_le_pow_right (by norm_num) (Nat.le_of_not_lt hj))
        rw [Nat.testBit_lt_two_pow h1]
        simp [hj]
    rw [hr, this]

theorem nextgen_echo_rule_witness :
    (3735928559 : Nat) < 2 ^ 32 ∧ (204 : Nat) < 2 ^ 8 ∧
      (∀ v, v < 8 → bitAt 204 v = bitAt v 1) ∧
      nextgen { Globals.init with POP := 3735928559, RULE := 204 }
        = some { Globals.init with POP := 3735928559, RULE := 204 } :=
  ⟨by decide, by decide, by decide,
   (nextgen_echo_rule { Globals.init with POP := 3735928559, RULE := 204 }
     (by decide) (by decide) (by decide)).2⟩

/-- C5. With `RULE = 255`, one call of `nextgen` yields `POP = 4294967295`
(all 32 cells alive), whatever the population was. -/
theorem nextgen_rule_all_alive (g : Globals) :
    nextgen { g with RULE := 255 } = some { g with RULE := 255, POP := 4294967295 } := by
  obtain ⟨r, hr, hbits⟩ := nextgen_spec { g with RULE := 255 }
  have h255 : ∀ v, v < 8 → Nat.testBit 255 v = true := by
    intro v hv
    interval_cases v <;> rfl
  have : r = 4294967295 := by
    apply Nat.eq_of_testBit_eq
    intro j
    rw [hbits j]
    have e : (4294967295 : Nat) = 2 ^ 32 - 1 := by norm_num
    rw [e, Nat.testBit_two_pow_sub_one]
    by_cases hj : j < 32
    · show (decide (j < 32) && Nat.testBit 255 (viewOf g.POP j)) = _
      rw [h255 _ (viewOf_lt g.POP j hj)]
      simp
    · simp [hj]
  rw [hr, this]

/-- C6, as it stands, fails: with only cell 0 alive the neighbourhood value of
cell 31 is 4, so cell 0 is not in its weight-1 (right) position. -/
theorem ring_adjacency_right_of_top_fails :
    viewOf 1 31 = 4 ∧
      ¬ (bitAt (viewOf 1 31) 0 = bitAt 1 0 ∧ bitAt (viewOf 1 0) 0 = bitAt 1 31) := by
  decide

/-- C6, amended. In `nextgen` the neighbourhood value used for cell 31 has bit 0
of the old `POP` as its weight-4 (left) bit and bit 30 as its weight-1 (right)
bit: cell 31 sees cell 0 as its left neighbour.  The value used for cell 0 has
bit 31 of the old `POP` as its weight-1 (right) bit: cell 0 sees cell 31 as its
right neighbour. -/
theorem ring_adjacency_at_ends (POP RULE newpop : Nat) :
    nextgenBody POP RULE 31 newpop
        = (applyrule RULE (toChar (viewOf POP 31))).map (fun b => newpop ||| u32 (b <<< 31)) ∧
      nextgenBody POP RULE 0 newpop
        = (applyrule RULE (toChar (viewOf POP 0))).map (fun b => newpop ||| b) ∧
      bitAt (viewOf POP 31) 2 = bitAt POP 0 ∧
      bitAt (viewOf POP 31) 0 = bitAt POP 30 ∧
      bitAt (viewOf POP 0) 0 = bitAt POP 31 := by
  refine ⟨rfl, rfl, ?_, ?_, ?_⟩
  · apply bitAt_congr
    rw [viewOf_testBit POP 31 2 (by norm_num)]
    rfl
  · apply bitAt_congr
    rw [viewOf_testBit POP 31 0 (by norm_num)]
    rfl
  · apply bitAt_congr
    rw [viewOf_testBit POP 0 0 (by norm_num)]
    rfl

/-- C9. For every cell index `i` in `0..31` the view `nextgen` passes to
`applyrule` lies in `0..7`, `applyrule` has a result there, every iteration of
the loop has a result, and `nextgen` has a result on every state. -/
theorem nextgen_total (g : Globals) (i : Nat) (hi : i < 32) :
    0 ≤ toChar (viewOf g.POP i) ∧ toChar (viewOf g.POP i) ≤ 7 ∧
      (applyrule g.RULE (toChar (viewOf g.POP i))).isSome = true ∧
      (∀ newpop, (nextgenBody g.POP g.RULE i newpop).isSome = true) ∧
      (nextgen g).isSome = true := by
  have hv := viewOf_lt g.POP i hi
  have hc := toChar_of_lt (viewOf g.POP i) (by omega)
  refine ⟨by omega, by omega, ?_, ?_, ?_⟩
  · rw [hc, applyrule_of_lt _ _ (by omega)]; rfl
  · intro newpop
    rw [nextgenBody_eq _ _ _ _ hi]; rfl
  · obtain ⟨r, hr, _⟩ := nextgen_spec g
    rw [hr]; rfl

theorem nextgen_total_witness :
    (31 : Nat) < 32 ∧ (nextgen { Globals.init with POP := 4294967295, RULE := 255 }).isSome = true :=
  ⟨by decide,
   (nextgen_total { Globals.init with POP := 4294967295, RULE := 255 } 31 (by decide)).2.2.2.2⟩

/-! ## The run loop -/

theorem nextgen_eq_stepPOP (g : Globals) :
    nextgen g = some { g with POP := stepPOP g.RULE g.POP } := by
  obtain ⟨r, hr, _⟩ := nextgenLoop_spec g.POP g.RULE 32 (le_refl _) 0
  unfold nextgen stepPOP
  rw [hr]; rfl

theorem runLoop_unfold (i : Nat) (g : Globals) (out : List Event) :
    runLoop i g out
      = if i < g.NUM_GEN then
          runLoop (i + 1) { g with POP := stepPOP g.RULE g.POP }
            (out ++ [printpop { g with POP := stepPOP g.RULE g.POP }])
        else Outcome.next g out := by
  rw [runLoop]
  have hs : (nextgen g).isSome = true := by rw [nextgen_eq_stepPOP]; rfl
  have hg : (nextgen g).get hs = { g with POP := stepPOP g.RULE g.POP } := by
    apply Option.some_injective
    rw [Option.some_get, nextgen_eq_stepPOP]
  rw [dif_pos hs, hg]

/-- The run loop entered with `d` iterations to go performs exactly `d` calls of
`nextgen`, each followed by a call of `printpop`, and then falls through.  The
step function is abstract here: `f` is what `nextgen` does to `POP` under `R`. -/
theorem runLoop_spec (f : Nat → Nat) (R N A : Nat) (O1 O2 : Option (List Char))
    (hf : ∀ P, stepPOP R P = f P) :
    ∀ (d i P : Nat) (out : List Event), N = i + d →
      runLoop i ⟨P, R, N, O1, O2, A⟩ out
        = Outcome.next ⟨f^[d] P, R, N, O1, O2, A⟩
            (out ++ (List.range d).map (fun k => printpop ⟨f^[k + 1] P, R, N, O1, O2, A⟩)) := by
  intro d
  induction d with
  | zero =>
    intro i P out h
    rw [runLoop_unfold]
    have : ¬ i < N := by omega
    simp [this]
  | succ d ih =>
    intro i P out h
    rw [runLoop_unfold]
    have hlt : i < N := by omega
    simp only [hlt, if_true, hf]
    rw [ih (i + 1) (f P) _ (by omega)]
    simp only [Function.iterate_succ, Function.comp_apply, List.append_assoc,
      List.singleton_append, List.range_succ_eq_map, List.map_cons, List.map_map,
      Function.iterate_zero, id_eq]
    rfl

theorem generate_spec (f : Nat → Nat) (R N A : Nat) (O1 O2 : Option (List Char))
    (hf : ∀ P, stepPOP R P = f P) (P : Nat) (out : List Event) :
    generate ⟨P, R, N, O1, O2, A⟩ out
      = Outcome.next ⟨f^[N] P, R, N, O1, O2, A⟩
          (out ++ (List.range (N + 1)).map (fun k => printpop ⟨f^[k] P, R, N, O1, O2, A⟩)) := by
  unfold generate
  rw [runLoop_spec f R N A O1 O2 hf N 0 P _ (by omega)]
  simp only [List.append_assoc, List.singleton_append, List.range_succ_eq_map N, List.map_cons,
    List.map_map, Function.iterate_zero, id_eq]
  rfl

theorem nextgen_of_step (f : Nat → Nat) (R N A : Nat) (O1 O2 : Option (List Char))
    (hf : ∀ P, stepPOP R P = f P) (P : Nat) :
    nextgen ⟨P, R, N, O1, O2, A⟩ = some ⟨f P, R, N, O1, O2, A⟩ := by
  rw [nextgen_eq_stepPOP]
  simp only [hf]

theorem emitted_map_printpop (h : Nat → Globals) (n : Nat) :
    emitted ((List.range n).map (fun k => printpop (h k))) = n := by
  unfold emitted
  rw [List.filter_eq_self.mpr]
  · simp
  · intro e he
    rw [List.mem_map] at he
    obtain ⟨k, _, rfl⟩ := he
    rfl

/-- C7. The run loop of `main`, started on any state (initial population
`g.POP`, rule `g.RULE`, generation count `g.NUM_GEN = N`), completes and emits
exactly `N + 1` populations, one `printpop` call each: the first is the initial
population unchanged and, for every `k < N`, the `(k+1)`-th is the result of
`nextgen` applied to the `k`-th. -/
theorem run_loop_emits_all_generations (g : Globals) (out : List Event) :
    ∃ pops : Nat → Nat,
      pops 0 = g.POP ∧
      (∀ k, k < g.NUM_GEN →
        nextgen { g with POP := pops k } = some { g with POP := pops (k + 1) }) ∧
      generate g out
        = Outcome.next { g with POP := pops g.NUM_GEN }
            (out ++ (List.range (g.NUM_GEN + 1)).map (fun k => printpop { g with POP := pops k })) ∧
      emitted ((List.range (g.NUM_GEN + 1)).map (fun k => printpop { g with POP := pops k }))
        = g.NUM_GEN + 1 := by
  obtain ⟨P, R, N, O1, O2, A⟩ := g
  generalize hf : stepPOP R = f
  have hf1 : ∀ Q, stepPOP R Q = f Q := fun Q => by rw [hf]
  refine ⟨fun k => f^[k] P, rfl, ?_, ?_, ?_⟩
  · intro k _
    have := nextgen_of_step f R N A O1 O2 hf1 (f^[k] P)
    rw [← Function.iterate_succ_apply' f k P] at this
    exact this
  · exact generate_spec f R N A O1 O2 hf1 P out
  · exact emitted_map_printpop (fun k => ⟨f^[k] P, R, N, O1, O2, A⟩) (N + 1)

/-- C10. `nextgen` changes only `POP`: after any number of calls of `nextgen`,
`RULE`, `NUM_GEN`, `ARGUMENTS`, `OUTFILE` and `OUTFILENAME` have the values
they had before the first call. -/
theorem nextgen_changes_only_POP (g g1 : Globals)
    (h : Relation.ReflTransGen (fun a b => nextgen a = some b) g g1) :
    g1.RULE = g.RULE ∧ g1.NUM_GEN = g.NUM_GEN ∧ g1.ARGUMENTS = g.ARGUMENTS ∧
      g1.OUTFILE = g.OUTFILE ∧ g1.OUTFILENAME = g.OUTFILENAME := by
  induction h with
  | refl => exact ⟨rfl, rfl, rfl, rfl, rfl⟩
  | @tail b c _ hstep ih =>
    rw [nextgen_eq_stepPOP b] at hstep
    cases hstep
    exact ih

theorem nextgen_changes_only_POP_witness :
    Relation.ReflTransGen (fun a b => nextgen a = some b)
        { Globals.init with POP := 1, RULE := 170, NUM_GEN := 5, ARGUMENTS := 33 }
        { Globals.init with POP := 2, RULE := 170, NUM_GEN := 5, ARGUMENTS := 33 } ∧
      (170 : Nat) = 170 ∧ (5 : Nat) = 5 ∧ (33 : Nat) = 33 :=
  have hstep : Relation.ReflTransGen (fun a b => nextgen a = some b)
      { Globals.init with POP := 1, RULE := 170, NUM_GEN := 5, ARGUMENTS := 33 }
      { Globals.init with POP := 2, RULE := 170, NUM_GEN := 5, ARGUMENTS := 33 } :=
    Relation.ReflTransGen.single (by decide)
  ⟨hstep, (nextgen_changes_only_POP _ _ hstep).1, (nextgen_changes_only_POP _ _ hstep).2.1,
    (nextgen_changes_only_POP _ _ hstep).2.2.1⟩

/-! ## The argument loop -/

theorem emitted_append (xs ys : List Event) : emitted (xs ++ ys) = emitted xs + emitted ys := by
  unfold emitted
  rw [List.filter_append, List.length_append]

/-- The argument loop never calls `printpop`. -/
theorem argLoop_emitted (env : Env) :
    ∀ (args : List (List Char)) (g : Globals) (out : List Event),
      emitted (argLoop env args g out).events = emitted out := by
  intro args g out
  induction args, g, out using argLoop.induct env <;> rw [argLoop.eq_def] <;> simp only []
  all_goals try simp only [*, if_true, if_false, not_true_eq_false, not_false_eq_true, ne_eq,
    Char.reduceEq, Bool.true_eq_false, Bool.false_eq_true]
  all_goals first
    | rfl
    | assumption
    | (simp only [Outcome.events, emitted_append]; rfl)

/-- Arguments that the loop reads to their end without leaving `main` can be
followed by more arguments: the loop goes on with those. -/
theorem argLoop_append (env : Env) (extra : List (List Char)) :
    ∀ (pre : List (List Char)) (g0 : Globals) (out0 : List Event) (g : Globals) (out : List Event),
      argLoop env pre g0 out0 = Outcome.next g out →
      argLoop env (pre ++ extra) g0 out0 = argLoop env extra g out := by
  intro pre g0 out0
  induction pre, g0, out0 using argLoop.induct env <;> intro g out h <;>
    rw [argLoop.eq_def] at h <;> simp only [] at h
  all_goals try simp only [*, if_true, if_false, not_true_eq_false, not_false_eq_true, ne_eq,
    Char.reduceEq, reduceCtorEq, Bool.true_eq_false, Bool.false_eq_true] at h
  case case1 =>
    cases h; rfl
  all_goals
    conv_lhs => rw [List.cons_append, argLoop.eq_def]
    simp only [List.cons_append]
    simp only [*, if_true, if_false, not_true_eq_false, not_false_eq_true, ne_eq,
      Char.reduceEq, Bool.true_eq_false, Bool.false_eq_true]
    rename_i ih
    exact ih _ _ h

/-! ## `readparam` on decimal numerals -/

theorem numeralValueFrom_cons (acc : Nat) (c : Char) (s : List Char) :
    numeralValueFrom acc (c :: s) = numeralValueFrom (10 * acc + (c.toNat - '0'.toNat)) s := rfl

theorem le_numeralValueFrom (s : List Char) : ∀ acc, acc ≤ numeralValueFrom acc s := by
  induction s with
  | nil => intro acc; exact le_refl _
  | cons c s ih =>
    intro acc
    rw [numeralValueFrom_cons]
    exact le_trans (by omega) (ih _)

/-- On a string of digits the loop of `readparam` computes the denoted number
exactly when it fits 32 bits, and returns -1 when it does not. -/
theorem readparamLoop_digits (s : List Char) :
    ∀ (container i : Nat), (∀ c ∈ s, '0'.toNat ≤ c.toNat ∧ c.toNat ≤ '9'.toNat) →
      container ≤ 4294967295 →
      (numeralValueFrom container s ≤ 4294967295 →
        readparamLoop s container i
          = (if i + s.length = 0 then -1 else 0, numeralValueFrom container s)) ∧
      (4294967295 < numeralValueFrom container s → (readparamLoop s container i).1 = -1) := by
  induction s with
  | nil =>
    intro container i _ hc
    constructor
    · intro _; rfl
    · intro h
      have : numeralValueFrom container [] = container := rfl
      omega
  | cons c s ih =>
    intro container i hd hc
    have hdc := hd c (List.mem_cons_self _ _)
    have hds : ∀ x ∈ s, '0'.toNat ≤ x.toNat ∧ x.toNat ≤ '9'.toNat :=
      fun x hx => hd x (List.mem_cons_of_mem _ hx)
    have e0 : '0'.toNat = 48 := rfl
    have e9 : '9'.toNat = 57 := rfl
    have e5 : '5'.toNat = 53 := rfl
    rw [numeralValueFrom_cons, readparamLoop, if_pos hdc]
    rw [e0, e9] at hdc
    by_cases hov : container > 429496729 ∨ (container = 429496729 ∧ c.toNat > '5'.toNat)
    · rw [if_pos hov]
      have hbig : 4294967295 < 10 * container + (c.toNat - '0'.toNat) := by
        rw [e5] at hov; rw [e0]; omega
      have := le_numeralValueFrom s (10 * container + (c.toNat - '0'.toNat))
      constructor
      · intro h; omega
      · intro _; rfl
    · rw [if_neg hov]
      have hfit : 10 * container + (c.toNat - '0'.toNat) ≤ 4294967295 := by
        rw [e5] at hov; rw [e0]; omega
      have hu : u32 (10 * container + (c.toNat - '0'.toNat))
          = 10 * container + (c.toNat - '0'.toNat) := by
        unfold u32; exact Nat.mod_eq_of_lt (by omega)
      rw [hu]
      have := ih (10 * container + (c.toNat - '0'.toNat)) (i + 1) hds hfit
      have hlen : i + 1 + s.length = i + (c :: s).length := by
        rw [List.length_cons]; omega
      rw [hlen] at this
      exact this

theorem isNumeral_iff (s : List Char) :
    isNumeral s = true ↔ s ≠ [] ∧ ∀ c ∈ s, '0'.toNat ≤ c.toNat ∧ c.toNat ≤ '9'.toNat := by
  unfold isNumeral
  cases s with
  | nil => simp
  | cons c s => simp [List.all_eq_true]

/-- `readparam` on a decimal numeral: 0 and the denoted number when it fits 32
bits, -1 when it does not. -/
theorem readparam_numeral (s : List Char) (hs : isNumeral s = true) :
    (numeralValue s ≤ 4294967295 → readparam s = (0, numeralValue s)) ∧
      (4294967295 < numeralValue s → (readparam s).1 = -1) := by
  obtain ⟨hne, hd⟩ := (isNumeral_iff s).mp hs
  have h := readparamLoop_digits s 0 0 hd (by norm_num)
  have hlen : ¬ (0 + s.length = 0) := by
    cases s with
    | nil => exact absurd rfl hne
    | cons c s => simp
  rw [if_neg hlen] at h
  exact h

/-- `readparam` on a string that begins with `-`: it returns -1. -/
theorem readparam_dash (s : List Char) (hs : charAt s 0 = '-') : readparam s = (-1, 0) := by
  cases s with
  | nil => exact absurd hs (by decide)
  | cons c s =>
    have hc : c = '-' := hs
    subst hc
    rfl

/-! ## The `-r` option -/

/-- The loop at a `-r` option whose parameter `readparam` rejects, or reads as
more than 255: `main` returns 1, having printed a diagnostic and the help. -/
theorem argLoop_rule_rejected (env : Env) (p : List Char) (post : List (List Char))
    (g : Globals) (out : List Event) (hr : (readparam p).1 = -1 ∨ (readparam p).2 > 255) :
    ∃ g1 evs, argLoop env (['-', 'r'] :: p :: post) g out = Outcome.exit 1 g1 (out ++ evs) ∧
      emitted evs = 0 := by
  have h0 : ¬ charAt ['-', 'r'] 0 ≠ '-' := by decide
  have h1 : charAt ['-', 'r'] 1 = 'r' := by decide
  rw [argLoop.eq_def]
  simp only [if_neg h0, if_pos h1, if_pos hr]
  by_cases hd : g.ARGUMENTS % 2 > 0
  · rw [if_pos hd]
    exact ⟨_, _, rfl, rfl⟩
  · rw [if_neg hd]
    exact ⟨_, _, rfl, rfl⟩

/-- The loop at a first `-r` option whose parameter `readparam` accepts with a
value of at most 255: `RULE` becomes that value and the loop goes on. -/
theorem argLoop_rule_accepted (env : Env) (p : List Char) (post : List (List Char))
    (g : Globals) (out : List Event) (v : Nat) (hr : readparam p = (0, v)) (hv : v ≤ 255)
    (hd : g.ARGUMENTS % 2 = 0) :
    argLoop env (['-', 'r'] :: p :: post) g out
      = argLoop env post { addFlag g 1 with RULE := v } out := by
  have h0 : ¬ charAt ['-', 'r'] 0 ≠ '-' := by decide
  have h1 : charAt ['-', 'r'] 1 = 'r' := by decide
  have h2 : ¬ g.ARGUMENTS % 2 > 0 := by omega
  have h3 : ¬ ((readparam p).1 = -1 ∨ (readparam p).2 > 255) := by
    rw [hr]
    simp only [not_or]
    exact ⟨by decide, by show ¬ v > 255; omega⟩
  have h4 : u8 v = v := by
    unfold u8; exact Nat.mod_eq_of_lt (by omega)
  conv_lhs => rw [argLoop.eq_def]
  simp only [if_neg h0, if_pos h1, if_neg h2, if_neg h3]
  rw [hr]
  simp only [h4]

/-- C8. Rule validation by the `-r` option, reached after any arguments `pre`
that the loop has read without leaving `main`: with a parameter that is a
decimal numeral of value above 255, or that begins with `-`, `main` returns 1
without emitting any population; with a first `-r` whose parameter is a decimal
numeral of value `v <= 255`, `RULE` is set to exactly `v` and the loop goes on
with the arguments that follow. -/
theorem rule_option_validated (env : Env) (pre post : List (List Char)) (p : List Char)
    (g : Globals) (out : List Event)
    (hpre : argLoop env pre { Globals.init with ARGUMENTS := 0 } [] = Outcome.next g out) :
    ((isNumeral p = true ∧ 255 < numeralValue p) ∨ charAt p 0 = '-' →
        ∃ g1 out1, main env (pre ++ ['-', 'r'] :: p :: post) = Outcome.exit 1 g1 out1 ∧
          emitted out1 = 0) ∧
      (isNumeral p = true ∧ numeralValue p ≤ 255 → g.ARGUMENTS % 2 = 0 →
        argLoop env (pre ++ ['-', 'r'] :: p :: post) { Globals.init with ARGUMENTS := 0 } []
          = argLoop env post { addFlag g 1 with RULE := numeralValue p } out) := by
  have hout : emitted out = 0 := by
    have := argLoop_emitted env pre { Globals.init with ARGUMENTS := 0 } []
    rw [hpre] at this
    exact this
  constructor
  · intro hbad
    have hr : (readparam p).1 = -1 ∨ (readparam p).2 > 255 := by
      rcases hbad with ⟨hnum, hv⟩ | hdash
      · by_cases hfit : numeralValue p ≤ 4294967295
        · right
          rw [(readparam_numeral p hnum).1 hfit]
          exact hv
        · left
          exact (readparam_numeral p hnum).2 (by omega)
      · left
        rw [readparam_dash p hdash]
    obtain ⟨g1, evs, hstep, hevs⟩ := argLoop_rule_rejected env p post g out hr
    refine ⟨g1, out ++ evs, ?_, ?_⟩
    · unfold main
      rw [argLoop_append env _ pre _ _ g out hpre, hstep]
    · rw [emitted_append, hout, hevs]
  · intro ⟨hnum, hv⟩ hfirst
    rw [argLoop_append env _ pre _ _ g out hpre]
    exact argLoop_rule_accepted env p post g out (numeralValue p)
      ((readparam_numeral p hnum).1 (by omega)) hv hfirst

theorem rule_option_validated_witness :
    argLoop ⟨fun _ => true, 0, 0, 0⟩ [['-', 'q']] { Globals.init with ARGUMENTS := 0 } []
        = Outcome.next (addFlag { Globals.init with ARGUMENTS := 0 } 4) [] ∧
      (∃ g1 out1,
        main ⟨fun _ => true, 0, 0, 0⟩ ([['-', 'q']] ++ ['-', 'r'] :: ['2', '5', '6'] :: [])
          = Outcome.exit 1 g1 out1 ∧ emitted out1 = 0) ∧
      argLoop ⟨fun _ => true, 0, 0, 0⟩ ([['-', 'q']] ++ ['-', 'r'] :: ['2', '5', '5'] :: [])
          { Globals.init with ARGUMENTS := 0 } []
        = argLoop ⟨fun _ => true, 0, 0, 0⟩ []
            { addFlag (addFlag { Globals.init with ARGUMENTS := 0 } 4) 1 with
              RULE := numeralValue ['2', '5', '5'] } [] :=
  ⟨by decide,
   (rule_option_validated ⟨fun _ => true, 0, 0, 0⟩ [['-', 'q']] [] ['2', '5', '6']
      (addFlag { Globals.init with ARGUMENTS := 0 } 4) [] (by decide)).1
      (Or.inl ⟨by decide, by decide⟩),
   (rule_option_validated ⟨fun _ => true, 0, 0, 0⟩ [['-', 'q']] [] ['2', '5', '5']
      (addFlag { Globals.init with ARGUMENTS := 0 } 4) [] (by decide)).2
      ⟨by decide, by decide⟩ (by decide)⟩

/-! ## Symmetries of the transition -/

theorem ofBits_lt (f : Nat → Bool) : ∀ n, ofBits f n < 2 ^ n := by
  intro n
  induction n with
  | zero => exact Nat.one_pos
  | succ n ih =>
    rw [ofBits, Nat.pow_succ]
    split <;> omega

theorem testBit_ofBits (f : Nat → Bool) :
    ∀ n j, (ofBits f n).testBit j = (decide (j < n) && f j) := by
  intro n
  induction n with
  | zero => intro j; simp [ofBits]
  | succ n ih =>
    intro j
    have hlt := ofBits_lt f n
    have e : ofBits f (n + 1) = 2 ^ n * (if f n then 1 else 0) ||| ofBits f n := by
      rw [← Nat.mul_add_lt_is_or hlt, ofBits]
      split <;> omega
    rw [e, Nat.testBit_or, Nat.testBit_mul_pow_two, ih j]
    by_cases h1 : j < n
    · have h2 : ¬ j ≥ n := by omega
      have h3 : j < n + 1 := by omega
      simp [h1, h2, h3]
    · by_cases h2 : j = n
      · subst h2
        cases hf : f j <;> simp [hf]
      · have h3 : ¬ j < n + 1 := by omega
        have h4 : j - n ≠ 0 := by omega
        have h5 : j ≥ n := by omega
        cases hf : f n
        · simp [h1, h3]
        · have h6 : Nat.testBit 1 (j - n) = false := by
            cases hb : Nat.testBit 1 (j - n)
            · rfl
            · exact absurd (Nat.testBit_one_eq_true_iff_self_eq_zero.mp hb) h4
          simp [h1, h3, h5, h6]

theorem testBit_of_ge_word {x j : Nat} (hx : x < 2 ^ 32) (hj : 32 ≤ j) : x.testBit j = false :=
  Nat.testBit_lt_two_pow (lt_of_lt_of_le hx (Nat.pow_le_pow_right (by norm_num) hj))

/-- Two 32-bit words with the same 32 bits are equal. -/
theorem eq_of_bits_eq {a b : Nat} (ha : a < 2 ^ 32) (hb : b < 2 ^ 32)
    (h : ∀ i, i < 32 → bitAt a i = bitAt b i) : a = b := by
  apply Nat.eq_of_testBit_eq
  intro i
  by_cases hi : i < 32
  · rw [testBit_eq_bitAt, testBit_eq_bitAt, h i hi]
  · rw [testBit_of_ge_word ha (by omega), testBit_of_ge_word hb (by omega)]

theorem rotl32_testBit (x k j : Nat) (hx : x < 2 ^ 32) (hk : k < 32) :
    (rotl32 x k).testBit j = (decide (j < 32) && x.testBit ((j + 32 - k) % 32)) := by
  unfold rotl32 u32
  rw [Nat.testBit_or, Nat.testBit_mod_two_pow, Nat.testBit_shiftLeft, Nat.testBit_shiftRight]
  by_cases hj : j < 32
  · by_cases hjk : k ≤ j
    · have e1 : (j + 32 - k) % 32 = j - k := by omega
      have e2 : x.testBit (32 - k + j) = false := testBit_of_ge_word hx (by omega)
      have e3 : j ≥ k := hjk
      simp [hj, e1, e2, e3]
    · have e1 : (j + 32 - k) % 32 = 32 - k + j := by omega
      have e3 : ¬ j ≥ k := hjk
      simp [hj, e1, e3]
  · have e2 : x.testBit (32 - k + j) = false := testBit_of_ge_word hx (by omega)
    simp [hj, e2]

theorem rotr32_testBit (x k j : Nat) (hx : x < 2 ^ 32) (hk : k < 32) :
    (rotr32 x k).testBit j = (decide (j < 32) && x.testBit ((j + k) % 32)) := by
  unfold rotr32 u32
  rw [Nat.testBit_or, Nat.testBit_mod_two_pow, Nat.testBit_shiftLeft, Nat.testBit_shiftRight]
  by_cases hj : j < 32
  · by_cases hjk : j + k < 32
    · have e1 : (j + k) % 32 = k + j := by omega
      have e3 : ¬ j ≥ 32 - k := by omega
      simp [hj, e1, e3]
    · have e1 : (j + k) % 32 = j - (32 - k) := by omega
      have e2 : x.testBit (k + j) = false := testBit_of_ge_word hx (by omega)
      have e3 : j ≥ 32 - k := by omega
      simp [hj, e1, e2, e3]
  · have e2 : x.testBit (k + j) = false := testBit_of_ge_word hx (by omega)
    simp [hj, e2]

theorem lt_word_of_testBit {x : Nat} (h : ∀ j, 32 ≤ j → x.testBit j = false) : x < 2 ^ 32 :=
  Nat.lt_pow_two_of_testBit x h

/-- The population `nextgen` stores, bit by bit. -/
theorem nextgen_pop (g : Globals) :
    ∃ r, nextgen g = some { g with POP := r } ∧ r < 2 ^ 32 ∧
      ∀ j, j < 32 → bitAt r j = bitAt g.RULE (viewOf g.POP j) := by
  obtain ⟨r, hr, hbits⟩ := nextgen_spec g
  refine ⟨r, hr, ?_, ?_⟩
  · apply lt_word_of_testBit
    intro j hj
    have : ¬ j < 32 := by omega
    rw [hbits j]; simp [this]
  · intro j hj
    apply bitAt_congr
    rw [hbits j]; simp [hj]

theorem rotl32_lt (x k : Nat) (hx : x < 2 ^ 32) (hk : k < 32) : rotl32 x k < 2 ^ 32 := by
  apply lt_word_of_testBit
  intro j hj
  have : ¬ j < 32 := by omega
  rw [rotl32_testBit x k j hx hk]; simp [this]

theorem rotr32_lt (x k : Nat) (hx : x < 2 ^ 32) (hk : k < 32) : rotr32 x k < 2 ^ 32 := by
  apply lt_word_of_testBit
  intro j hj
  have : ¬ j < 32 := by omega
  rw [rotr32_testBit x k j hx hk]; simp [this]

theorem bitAt_rotl32 (x k i : Nat) (hx : x < 2 ^ 32) (hk : k < 32) (hi : i < 32) :
    bitAt (rotl32 x k) i = bitAt x ((i + 32 - k) % 32) := by
  apply bitAt_congr
  rw [rotl32_testBit x k i hx hk]; simp [hi]

theorem bitAt_rotr32 (x k i : Nat) (hx : x < 2 ^ 32) (hk : k < 32) (hi : i < 32) :
    bitAt (rotr32 x k) i = bitAt x ((i + k) % 32) := by
  apply bitAt_congr
  rw [rotr32_testBit x k i hx hk]; simp [hi]

theorem bitAt_rev32 (x i : Nat) (hi : i < 32) : bitAt (rev32 x) i = bitAt x (31 - i) := by
  apply bitAt_congr
  unfold rev32
  rw [testBit_ofBits]; simp [hi]

theorem rev32_lt (x : Nat) : rev32 x < 2 ^ 32 := ofBits_lt _ 32

theorem bitAt_mirrorRule (r v : Nat) (hv : v < 8) :
    bitAt (mirrorRule r) v = bitAt r (4 * (v % 2) + 2 * (v / 2 % 2) + v / 4 % 2) := by
  apply bitAt_congr
  unfold mirrorRule
  rw [testBit_ofBits]; simp [hv]

/-- The neighbourhood value of a rotated population is the neighbourhood value
of the cell that was rotated into place. -/
theorem viewOf_rotl32 (x k i : Nat) (hx : x < 2 ^ 32) (hk : k < 32) (hi : i < 32) :
    viewOf (rotl32 x k) i = viewOf x ((i + 32 - k) % 32) := by
  have h1 : (i + 32 - k) % 32 < 32 := Nat.mod_lt _ (by norm_num)
  rw [viewOf_eq _ i hi, viewOf_eq _ _ h1,
    bitAt_rotl32 x k _ hx hk (Nat.mod_lt _ (by norm_num)),
    bitAt_rotl32 x k i hx hk hi,
    bitAt_rotl32 x k _ hx hk (Nat.mod_lt _ (by norm_num))]
  have e1 : ((i + 1) % 32 + 32 - k) % 32 = ((i + 32 - k) % 32 + 1) % 32 := by omega
  have e2 : ((i + 31) % 32 + 32 - k) % 32 = ((i + 32 - k) % 32 + 31) % 32 := by omega
  rw [e1, e2]

/-- C16. `nextgen` commutes with rotation of the ring: for every 32-bit
population, every rule and every `k` in `0..31`, `nextgen` on the population
rotated left by `k` gives the result of `nextgen` on the population, rotated
left by `k`. -/
theorem nextgen_commutes_with_rotation (g : Globals) (k : Nat) (hP : g.POP < 2 ^ 32)
    (hk : k < 32) :
    ∃ y, nextgen g = some { g with POP := y } ∧
      nextgen { g with POP := rotl32 g.POP k } = some { g with POP := rotl32 y k } := by
  obtain ⟨y, hy, hylt, hybits⟩ := nextgen_pop g
  obtain ⟨z, hz, hzlt, hzbits⟩ := nextgen_pop { g with POP := rotl32 g.POP k }
  refine ⟨y, hy, ?_⟩
  have hzy : z = rotl32 y k := by
    apply eq_of_bits_eq hzlt (rotl32_lt y k hylt hk)
    intro i hi
    have h1 : (i + 32 - k) % 32 < 32 := Nat.mod_lt _ (by norm_num)
    rw [hzbits i hi, bitAt_rotl32 y k i hylt hk hi, hybits _ h1]
    show bitAt g.RULE (viewOf (rotl32 g.POP k) i) = _
    rw [viewOf_rotl32 g.POP k i hP hk hi]
  rw [hz, hzy]

theorem nextgen_commutes_with_rotation_witness :
    (2147483649 : Nat) < 2 ^ 32 ∧ (5 : Nat) < 32 ∧
      ∃ y, nextgen { Globals.init with POP := 2147483649, RULE := 110 }
          = some { Globals.init with POP := y, RULE := 110 } ∧
        nextgen { Globals.init with POP := rotl32 2147483649 5, RULE := 110 }
          = some { Globals.init with POP := rotl32 y 5, RULE := 110 } :=
  ⟨by decide, by decide,
   nextgen_commutes_with_rotation { Globals.init with POP := 2147483649, RULE := 110 } 5
     (by decide) (by decide)⟩

/-- C17. The two pure-neighbour rules are one-cell rotations: on every 32-bit
population `nextgen` under `RULE = 170` yields the population rotated left by
one (old bit 31 becomes new bit 0), and under `RULE = 240` the population
rotated right by one (old bit 0 becomes new bit 31). -/
theorem nextgen_neighbour_rules_rotate (g : Globals) (hP : g.POP < 2 ^ 32) :
    nextgen { g with RULE := 170 } = some { g with RULE := 170, POP := rotl32 g.POP 1 } ∧
      bitAt (rotl32 g.POP 1) 0 = bitAt g.POP 31 ∧
      nextgen { g with RULE := 240 } = some { g with RULE := 240, POP := rotr32 g.POP 1 } ∧
      bitAt (rotr32 g.POP 1) 31 = bitAt g.POP 0 := by
  have h170 : ∀ v, v < 8 → bitAt 170 v = bitAt v 0 := by
    intro v hv; interval_cases v <;> rfl
  have h240 : ∀ v, v < 8 → bitAt 240 v = bitAt v 2 := by
    intro v hv; interval_cases v <;> rfl
  have hv0 : ∀ i, i < 32 → bitAt (viewOf g.POP i) 0 = bitAt g.POP ((i + 31) % 32) := by
    intro i hi
    apply bitAt_congr
    rw [viewOf_testBit g.POP i 0 hi]; simp
  have hv2 : ∀ i, i < 32 → bitAt (viewOf g.POP i) 2 = bitAt g.POP ((i + 1) % 32) := by
    intro i hi
    apply bitAt_congr
    rw [viewOf_testBit g.POP i 2 hi]
    have : (i + 31 + 2) % 32 = (i + 1) % 32 := by omega
    simp [this]
  refine ⟨?_, bitAt_rotl32 g.POP 1 0 hP (by norm_num) (by norm_num), ?_,
    bitAt_rotr32 g.POP 1 31 hP (by norm_num) (by norm_num)⟩
  · obtain ⟨y, hy, hylt, hybits⟩ := nextgen_pop { g with RULE := 170 }
    have : y = rotl32 g.POP 1 := by
      apply eq_of_bits_eq hylt (rotl32_lt _ _ hP (by norm_num))
      intro i hi
      rw [hybits i hi, bitAt_rotl32 g.POP 1 i hP (by norm_num) hi]
      show bitAt 170 (viewOf g.POP i) = _
      rw [h170 _ (viewOf_lt g.POP i hi), hv0 i hi]
      have : (i + 32 - 1) % 32 = (i + 31) % 32 := by omega
      rw [this]
    rw [hy, this]
  · obtain ⟨y, hy, hylt, hybits⟩ := nextgen_pop { g with RULE := 240 }
    have : y = rotr32 g.POP 1 := by
      apply eq_of_bits_eq hylt (rotr32_lt _ _ hP (by norm_num))
      intro i hi
      rw [hybits i hi, bitAt_rotr32 g.POP 1 i hP (by norm_num) hi]
      show bitAt 240 (viewOf g.POP i) = _
      rw [h240 _ (viewOf_lt g.POP i hi), hv2 i hi]
    rw [hy, this]

theorem nextgen_neighbour_rules_rotate_witness :
    (2147483649 : Nat) < 2 ^ 32 ∧
      nextgen { Globals.init with POP := 2147483649, RULE := 170 }
        = some { Globals.init with POP := rotl32 2147483649 1, RULE := 170 } ∧
      nextgen { Globals.init with POP := 2147483649, RULE := 240 }
        = some { Globals.init with POP := rotr32 2147483649 1, RULE := 240 } :=
  ⟨by decide,
   (nextgen_neighbour_rules_rotate { Globals.init with POP := 2147483649 } (by decide)).1,
   (nextgen_neighbour_rules_rotate { Globals.init with POP := 2147483649 } (by decide)).2.2.1⟩

/-- C18. Mirror symmetry: with `rev32 x` the bits of `x` reversed (bit `i` of
`rev32 x` is bit `31 - i` of `x`) and `mirrorRule r` the rule whose bit
`4a + 2b + c` is bit `4c + 2b + a` of `r`, `nextgen` on the reversed population
under the mirrored rule gives the reverse of what `nextgen` gives on the
population under the rule. -/
theorem nextgen_mirror_symmetry (g : Globals) :
    (∀ i, i < 32 → bitAt (rev32 g.POP) i = bitAt g.POP (31 - i)) ∧
      (∀ a b c, a ≤ 1 → b ≤ 1 → c ≤ 1 →
        bitAt (mirrorRule g.RULE) (4 * a + 2 * b + c) = bitAt g.RULE (4 * c + 2 * b + a)) ∧
      ∃ y, nextgen g = some { g with POP := y } ∧
        nextgen { g with POP := rev32 g.POP, RULE := mirrorRule g.RULE }
          = some { g with POP := rev32 y, RULE := mirrorRule g.RULE } := by
  refine ⟨fun i hi => bitAt_rev32 g.POP i hi, ?_, ?_⟩
  · intro a b c ha hb hc
    rw [bitAt_mirrorRule _ _ (by omega)]
    have e : 4 * ((4 * a + 2 * b + c) % 2) + 2 * ((4 * a + 2 * b + c) / 2 % 2)
        + (4 * a + 2 * b + c) / 4 % 2 = 4 * c + 2 * b + a := by omega
    rw [e]
  · obtain ⟨y, hy, hylt, hybits⟩ := nextgen_pop g
    obtain ⟨z, hz, hzlt, hzbits⟩ :=
      nextgen_pop { g with POP := rev32 g.POP, RULE := mirrorRule g.RULE }
    refine ⟨y, hy, ?_⟩
    have hzy : z = rev32 y := by
      apply eq_of_bits_eq hzlt (rev32_lt y)
      intro i hi
      have h1 : 31 - i < 32 := by omega
      rw [hzbits i hi, bitAt_rev32 y i hi, hybits _ h1]
      show bitAt (mirrorRule g.RULE) (viewOf (rev32 g.POP) i) = _
      rw [bitAt_mirrorRule _ _ (viewOf_lt _ i hi)]
      congr 1
      rw [viewOf_eq (rev32 g.POP) i hi, viewOf_eq g.POP (31 - i) h1,
        bitAt_rev32 g.POP _ (Nat.mod_lt _ (by norm_num)), bitAt_rev32 g.POP i hi,
        bitAt_rev32 g.POP _ (Nat.mod_lt _ (by norm_num))]
      have e1 : 31 - (i + 1) % 32 = (31 - i + 31) % 32 := by omega
      have e2 : 31 - (i + 31) % 32 = (31 - i + 1) % 32 := by omega
      rw [e1, e2]
      have b1 := bitAt_le_one g.POP ((31 - i + 31) % 32)
      have b2 := bitAt_le_one g.POP (31 - i)
      have b3 := bitAt_le_one g.POP ((31 - i + 1) % 32)
      omega
    rw [hz, hzy]

/-! ## Single options of the argument loop -/

/-- The loop at a `-p` option followed by a parameter. -/
theorem argLoop_pop_step (env : Env) (p : List Char) (post : List (List Char))
    (g : Globals) (out : List Event) :
    argLoop env (['-', 'p'] :: p :: post) g out
      = if g.ARGUMENTS % 4 > 1 then
          Outcome.exit 1 g (out ++ [Event.say Msg.tooManyPop, Event.help])
        else if (readparam p).1 = -1 then
          Outcome.exit 1 (addFlag g 2) (out ++ [Event.say Msg.badPop, Event.help])
        else
          argLoop env post { addFlag g 2 with POP := (readparam p).2 } out := by
  have h0 : ¬ charAt ['-', 'p'] 0 ≠ '-' := by decide
  have h1 : ¬ charAt ['-', 'p'] 1 = 'r' := by decide
  have h2 : charAt ['-', 'p'] 1 = 'p' := by decide
  conv_lhs => rw [argLoop.eq_def]
  simp only [if_neg h0, if_neg h1, if_pos h2]

/-- The loop at a `-r` option followed by a parameter. -/
theorem argLoop_rule_step (env : Env) (p : List Char) (post : List (List Char))
    (g : Globals) (out : List Event) :
    argLoop env (['-', 'r'] :: p :: post) g out
      = if g.ARGUMENTS % 2 > 0 then
          Outcome.exit 1 g (out ++ [Event.say Msg.tooManyRule, Event.help])
        else if (readparam p).1 = -1 ∨ (readparam p).2 > 255 then
          Outcome.exit 1 (addFlag g 1) (out ++ [Event.say Msg.badRule, Event.help])
        else
          argLoop env post { addFlag g 1 with RULE := u8 (readparam p).2 } out := by
  have h0 : ¬ charAt ['-', 'r'] 0 ≠ '-' := by decide
  have h1 : charAt ['-', 'r'] 1 = 'r' := by decide
  conv_lhs => rw [argLoop.eq_def]
  simp only [if_neg h0, if_pos h1]

/-- The loop at a `-n` option followed by a parameter. -/
theorem argLoop_numgen_step (env : Env) (p : List Char) (post : List (List Char))
    (g : Globals) (out : List Event) :
    argLoop env (['-', 'n'] :: p :: post) g out
      = if g.ARGUMENTS % 64 > 31 then
          Outcome.exit 1 g (out ++ [Event.say Msg.tooManyNumGen, Event.help])
        else if (readparam p).1 = -1 then
          Outcome.exit 1 (addFlag g 32) (out ++ [Event.say Msg.badNumGen, Event.help])
        else
          argLoop env post { addFlag g 32 with NUM_GEN := (readparam p).2 } out := by
  have h0 : ¬ charAt ['-', 'n'] 0 ≠ '-' := by decide
  have h1 : ¬ charAt ['-', 'n'] 1 = 'r' := by decide
  have h2 : ¬ charAt ['-', 'n'] 1 = 'p' := by decide
  have h3 : ¬ charAt ['-', 'n'] 1 = 'q' := by decide
  have h4 : ¬ charAt ['-', 'n'] 1 = 'v' := by decide
  have h5 : ¬ charAt ['-', 'n'] 1 = 'o' := by decide
  have h6 : charAt ['-', 'n'] 1 = 'n' := by decide
  conv_lhs => rw [argLoop.eq_def]
  simp only [if_neg h0, if_neg h1, if_neg h2, if_neg h3, if_neg h4, if_neg h5, if_pos h6]

/-- The loop at a `-q` option. -/
theorem argLoop_quiet_step (env : Env) (rest : List (List Char)) (g : Globals)
    (out : List Event) :
    argLoop env (['-', 'q'] :: rest) g out
      = if g.ARGUMENTS % 8 > 3 then
          Outcome.exit 1 g (out ++ [Event.say Msg.tooManyQuiet, Event.help])
        else
          argLoop env rest (addFlag g 4) out := by
  have h0 : ¬ charAt ['-', 'q'] 0 ≠ '-' := by decide
  have h1 : ¬ charAt ['-', 'q'] 1 = 'r' := by decide
  have h2 : ¬ charAt ['-', 'q'] 1 = 'p' := by decide
  have h3 : charAt ['-', 'q'] 1 = 'q' := by decide
  conv_lhs => rw [argLoop.eq_def]
  simp only [if_neg h0, if_neg h1, if_neg h2, if_pos h3]

/-- The loop at a `-v` option. -/
theorem argLoop_verbose_step (env : Env) (rest : List (List Char)) (g : Globals)
    (out : List Event) :
    argLoop env (['-', 'v'] :: rest) g out
      = if g.ARGUMENTS % 16 > 7 then
          Outcome.exit 1 g (out ++ [Event.say Msg.tooManyVerbose, Event.help])
        else
          argLoop env rest (addFlag g 8) out := by
  have h0 : ¬ charAt ['-', 'v'] 0 ≠ '-' := by decide
  have h1 : ¬ charAt ['-', 'v'] 1 = 'r' := by decide
  have h2 : ¬ charAt ['-', 'v'] 1 = 'p' := by decide
  have h3 : ¬ charAt ['-', 'v'] 1 = 'q' := by decide
  have h4 : charAt ['-', 'v'] 1 = 'v' := by decide
  conv_lhs => rw [argLoop.eq_def]
  simp only [if_neg h0, if_neg h1, if_neg h2, if_neg h3, if_pos h4]

/-! ## `main` after the argument loop -/

theorem main_of_exit (env : Env) (args : List (List Char)) (code : Int) (g : Globals)
    (out : List Event)
    (h : argLoop env args { Globals.init with ARGUMENTS := 0 } [] = Outcome.exit code g out) :
    main env args = Outcome.exit code g out := by
  unfold main
  rw [h]

theorem main_of_fault (env : Env) (args : List (List Char)) (g : Globals) (out : List Event)
    (h : argLoop env args { Globals.init with ARGUMENTS := 0 } [] = Outcome.fault g out) :
    main env args = Outcome.fault g out := by
  unfold main
  rw [h]

theorem main_of_next (env : Env) (args : List (List Char)) (g : Globals) (out : List Event)
    (h : argLoop env args { Globals.init with ARGUMENTS := 0 } [] = Outcome.next g out) :
    main env args
      = if g.ARGUMENTS % 16 > 7 ∧ g.ARGUMENTS % 8 > 3 then
          Outcome.exit 1 g (out ++ [Event.say Msg.quietAndVerbose, Event.help])
        else
          match generate (setDefaults env g) (out ++ verboseHeader (setDefaults env g)) with
          | Outcome.next g2 out2 => Outcome.exit 0 g2 out2
          | r => r := by
  unfold main
  rw [h]

/-! ## `readparam` and the `-p` option -/

/-- C11. For every non-empty string of decimal digits (leading zeros allowed):
if the number it denotes is at most 4294967295, `readparam` returns 0 and
stores exactly that number; if it exceeds 4294967295, `readparam` returns -1,
and `main`, reaching it as the parameter of `-p`, returns 1 without emitting a
population. -/
theorem readparam_reads_numeral (s : List Char) (hs : isNumeral s = true) :
    (numeralValue s ≤ 4294967295 → readparam s = (0, numeralValue s)) ∧
      (4294967295 < numeralValue s →
        (readparam s).1 = -1 ∧
        ∀ (env : Env) (pre post : List (List Char)) (g : Globals) (out : List Event),
          argLoop env pre { Globals.init with ARGUMENTS := 0 } [] = Outcome.next g out →
          ∃ g1 out1, main env (pre ++ ['-', 'p'] :: s :: post) = Outcome.exit 1 g1 out1 ∧
            emitted out1 = 0) := by
  refine ⟨(readparam_numeral s hs).1, fun hbig => ?_⟩
  have hr := (readparam_numeral s hs).2 hbig
  refine ⟨hr, ?_⟩
  intro env pre post g out hpre
  have hout : emitted out = 0 := by
    have := argLoop_emitted env pre { Globals.init with ARGUMENTS := 0 } []
    rw [hpre] at this
    exact this
  have hloop := argLoop_append env (['-', 'p'] :: s :: post) pre _ _ g out hpre
  rw [argLoop_pop_step, if_pos hr] at hloop
  by_cases hd : g.ARGUMENTS % 4 > 1
  · rw [if_pos hd] at hloop
    exact ⟨_, _, main_of_exit env _ _ _ _ hloop, by rw [emitted_append, hout]; rfl⟩
  · rw [if_neg hd] at hloop
    exact ⟨_, _, main_of_exit env _ _ _ _ hloop, by rw [emitted_append, hout]; rfl⟩

theorem readparam_reads_numeral_witness :
    isNumeral ['0', '0', '4', '2', '9', '4', '9', '6', '7', '2', '9', '5'] = true ∧
      numeralValue ['0', '0', '4', '2', '9', '4', '9', '6', '7', '2', '9', '5'] ≤ 4294967295 ∧
      readparam ['0', '0', '4', '2', '9', '4', '9', '6', '7', '2', '9', '5']
        = (0, numeralValue ['0', '0', '4', '2', '9', '4', '9', '6', '7', '2', '9', '5']) ∧
      isNumeral ['4', '2', '9', '4', '9', '6', '7', '2', '9', '6'] = true ∧
      4294967295 < numeralValue ['4', '2', '9', '4', '9', '6', '7', '2', '9', '6'] ∧
      (readparam ['4', '2', '9', '4', '9', '6', '7', '2', '9', '6']).1 = -1 :=
  ⟨by decide, by decide,
   (readparam_reads_numeral ['0', '0', '4', '2', '9', '4', '9', '6', '7', '2', '9', '5']
     (by decide)).1 (by decide),
   by decide, by decide,
   ((readparam_reads_numeral ['4', '2', '9', '4', '9', '6', '7', '2', '9', '6']
     (by decide)).2 (by decide)).1⟩

/-- C12 at its failing input: `12abc` is not a decimal numeral, yet `readparam`
returns 0 on it and stores 12, and `-r 12abc` sets `RULE` to 12.  On the
claim's other examples (the empty string, `abc`, `-1`) it returns -1. -/
theorem readparam_accepts_trailing_characters (env : Env) :
    isNumeral ['1', '2', 'a', 'b', 'c'] = false ∧
      readparam ['1', '2', 'a', 'b', 'c'] = (0, 12) ∧
      argLoop env [['-', 'r'], ['1', '2', 'a', 'b', 'c']] { Globals.init with ARGUMENTS := 0 } []
        = Outcome.next { Globals.init with ARGUMENTS := 1, RULE := 12 } [] ∧
      (readparam []).1 = -1 ∧ (readparam ['a', 'b', 'c']).1 = -1 ∧
      (readparam ['-', '1']).1 = -1 :=
  ⟨by decide, by decide, rfl, by decide, by decide, by decide⟩

/-- C15 at its failing input: with `-n` as the last argument `main` reads
`argv[argc]`, a null pointer, as the parameter (no help, no return value),
while with `-r`, `-p` or `-o` as the last argument it prints the help and
returns 1. -/
theorem missing_numgen_parameter_faults (env : Env) :
    main env [['-', 'n']]
        = Outcome.fault (addFlag { Globals.init with ARGUMENTS := 0 } 32) [] ∧
      main env [['-', 'r']]
        = Outcome.exit 1 (addFlag { Globals.init with ARGUMENTS := 0 } 1)
            [Event.say Msg.notEnough, Event.help] ∧
      main env [['-', 'p']]
        = Outcome.exit 1 (addFlag { Globals.init with ARGUMENTS := 0 } 2)
            [Event.say Msg.notEnough, Event.help] ∧
      main env [['-', 'o']]
        = Outcome.exit 1 (addFlag { Globals.init with ARGUMENTS := 0 } 16)
            [Event.say Msg.notEnough, Event.help] :=
  ⟨rfl, rfl, rfl, rfl⟩

/-! ## The option flags -/

/-- Along the argument loop the option flags stay below 64. -/
theorem argLoop_flags_lt (env : Env) :
    ∀ (args : List (List Char)) (g : Globals) (out : List Event) (g1 : Globals)
      (out1 : List Event),
      argLoop env args g out = Outcome.next g1 out1 → g.ARGUMENTS < 64 →
      g1.ARGUMENTS < 64 := by
  intro args g out
  induction args, g, out using argLoop.induct env <;> intro g1 out1 h hA <;>
    rw [argLoop.eq_def] at h <;> simp only [] at h
  all_goals try simp only [*, if_true, if_false, not_true_eq_false, not_false_eq_true, ne_eq,
    Char.reduceEq, reduceCtorEq, Bool.true_eq_false, Bool.false_eq_true] at h
  case case1 =>
    cases h
    omega
  all_goals
    rename_i ih
    dsimp only [addFlag, u8] at ih h
    have hA2 := ih _ _ h (by omega)
    omega

/-- Once the `-r` flag is set it stays set and `RULE` keeps its value. -/
theorem argLoop_keeps_rule (env : Env) :
    ∀ (args : List (List Char)) (g : Globals) (out : List Event) (g1 : Globals)
      (out1 : List Event),
      argLoop env args g out = Outcome.next g1 out1 → g.ARGUMENTS < 64 → g.ARGUMENTS % 2 > 0 →
      g1.ARGUMENTS % 2 > 0 ∧ g1.RULE = g.RULE := by
  intro args g out
  induction args, g, out using argLoop.induct env <;> intro g1 out1 h hA hbit <;>
    rw [argLoop.eq_def] at h <;> simp only [] at h
  all_goals try simp only [*, if_true, if_false, not_true_eq_false, not_false_eq_true, ne_eq,
    Char.reduceEq, reduceCtorEq, Bool.true_eq_false, Bool.false_eq_true] at h
  case case1 =>
    cases h
    omega
  all_goals
    rename_i ih
    dsimp only [addFlag, u8] at ih h
    have hA2 := ih _ _ h (by omega) (by omega)
    omega

/-- Once the `-p` flag is set it stays set and `POP` keeps its value. -/
theorem argLoop_keeps_pop (env : Env) :
    ∀ (args : List (List Char)) (g : Globals) (out : List Event) (g1 : Globals)
      (out1 : List Event),
      argLoop env args g out = Outcome.next g1 out1 → g.ARGUMENTS < 64 → g.ARGUMENTS % 4 > 1 →
      g1.ARGUMENTS % 4 > 1 ∧ g1.POP = g.POP := by
  intro args g out
  induction args, g, out using argLoop.induct env <;> intro g1 out1 h hA hbit <;>
    rw [argLoop.eq_def] at h <;> simp only [] at h
  all_goals try simp only [*, if_true, if_false, not_true_eq_false, not_false_eq_true, ne_eq,
    Char.reduceEq, reduceCtorEq, Bool.true_eq_false, Bool.false_eq_true] at h
  case case1 =>
    cases h
    omega
  all_goals
    rename_i ih
    dsimp only [addFlag, u8] at ih h
    have hA2 := ih _ _ h (by omega) (by omega)
    omega

/-- Once the `-n` flag is set it stays set and `NUM_GEN` keeps its value. -/
theorem argLoop_keeps_numgen (env : Env) :
    ∀ (args : List (List Char)) (g : Globals) (out : List Event) (g1 : Globals)
      (out1 : List Event),
      argLoop env args g out = Outcome.next g1 out1 → g.ARGUMENTS < 64 → g.ARGUMENTS % 64 > 31 →
      g1.ARGUMENTS % 64 > 31 ∧ g1.NUM_GEN = g.NUM_GEN := by
  intro args g out
  induction args, g, out using argLoop.induct env <;> intro g1 out1 h hA hbit <;>
    rw [argLoop.eq_def] at h <;> simp only [] at h
  all_goals try simp only [*, if_true, if_false, not_true_eq_false, not_false_eq_true, ne_eq,
    Char.reduceEq, reduceCtorEq, Bool.true_eq_false, Bool.false_eq_true] at h
  case case1 =>
    cases h
    omega
  all_goals
    rename_i ih
    dsimp only [addFlag, u8] at ih h
    have hA2 := ih _ _ h (by omega) (by omega)
    omega

/-- Once the `-q` flag is set it stays set. -/
theorem argLoop_keeps_quiet (env : Env) :
    ∀ (args : List (List Char)) (g : Globals) (out : List Event) (g1 : Globals)
      (out1 : List Event),
      argLoop env args g out = Outcome.next g1 out1 → g.ARGUMENTS < 64 → g.ARGUMENTS % 8 > 3 →
      g1.ARGUMENTS % 8 > 3 := by
  intro args g out
  induction args, g, out using argLoop.induct env <;> intro g1 out1 h hA hbit <;>
    rw [argLoop.eq_def] at h <;> simp only [] at h
  all_goals try simp only [*, if_true, if_false, not_true_eq_false, not_false_eq_true, ne_eq,
    Char.reduceEq, reduceCtorEq, Bool.true_eq_false, Bool.false_eq_true] at h
  case case1 =>
    cases h
    omega
  all_goals
    rename_i ih
    dsimp only [addFlag, u8] at ih h
    have hA2 := ih _ _ h (by omega) (by omega)
    omega

/-- Once the `-v` flag is set it stays set. -/
theorem argLoop_keeps_verbose (env : Env) :
    ∀ (args : List (List Char)) (g : Globals) (out : List Event) (g1 : Globals)
      (out1 : List Event),
      argLoop env args g out = Outcome.next g1 out1 → g.ARGUMENTS < 64 → g.ARGUMENTS % 16 > 7 →
      g1.ARGUMENTS % 16 > 7 := by
  intro args g out
  induction args, g, out using argLoop.induct env <;> intro g1 out1 h hA hbit <;>
    rw [argLoop.eq_def] at h <;> simp only [] at h
  all_goals try simp only [*, if_true, if_false, not_true_eq_false, not_false_eq_true, ne_eq,
    Char.reduceEq, reduceCtorEq, Bool.true_eq_false, Bool.false_eq_true] at h
  case case1 =>
    cases h
    omega
  all_goals
    rename_i ih
    dsimp only [addFlag, u8] at ih h
    have hA2 := ih _ _ h (by omega) (by omega)
    omega

/-- If the `-n` flag is set at the end of the loop and was not set at its start,
the loop has come to an argument whose first two characters are `-n` with
nothing pending before it: an `-n` option was read. -/
theorem argLoop_numgen_flag_from_option (env : Env) :
    ∀ (args : List (List Char)) (g : Globals) (out : List Event) (g1 : Globals)
      (out1 : List Event),
      argLoop env args g out = Outcome.next g1 out1 → g.ARGUMENTS < 64 →
      g.ARGUMENTS % 64 ≤ 31 → g1.ARGUMENTS % 64 > 31 →
      ∃ pre a post g2 out2, args = pre ++ a :: post ∧
        argLoop env pre g out = Outcome.next g2 out2 ∧ charAt a 0 = '-' ∧ charAt a 1 = 'n' := by
  intro args g out
  induction args, g, out using argLoop.induct env <;> intro g1 out1 h hA hclear hset <;>
    rw [argLoop.eq_def] at h <;> simp only [] at h
  all_goals try simp only [*, if_true, if_false, not_true_eq_false, not_false_eq_true, ne_eq,
    Char.reduceEq, reduceCtorEq, Bool.true_eq_false, Bool.false_eq_true] at h
  case case1 =>
    cases h
    omega
  case case22 =>
    refine ⟨[], _, _, _, _, rfl, rfl, ?_, ?_⟩
    · exact Decidable.of_not_not (by assumption)
    · assumption
  all_goals
    rename_i ih
    dsimp only [addFlag, u8] at ih h
    obtain ⟨pre, b, post, g2, out2, hargs, hpre, hb0, hb1⟩ := ih _ _ h (by omega) (by omega) hset
    subst hargs
    first
    | refine ⟨_ :: _ :: pre, b, post, g2, out2, rfl, ?_, hb0, hb1⟩
    | refine ⟨_ :: pre, b, post, g2, out2, rfl, ?_, hb0, hb1⟩
    all_goals
      rw [argLoop.eq_def]
      simp only []
      simp only [*, if_true, if_false, not_true_eq_false, not_false_eq_true, ne_eq,
        Char.reduceEq, Bool.true_eq_false, Bool.false_eq_true]
      exact hpre

/-- When `main` leaves the argument loop by a `return`, the help text is the
last thing it has printed. -/
theorem argLoop_exit_help (env : Env) :
    ∀ (args : List (List Char)) (g : Globals) (out : List Event) (code : Int) (g1 : Globals)
      (out1 : List Event),
      argLoop env args g out = Outcome.exit code g1 out1 →
      out1.getLast? = some Event.help := by
  intro args g out
  induction args, g, out using argLoop.induct env <;> intro code g1 out1 h <;>
    rw [argLoop.eq_def] at h <;> simp only [] at h
  all_goals try simp only [*, if_true, if_false, not_true_eq_false, not_false_eq_true, ne_eq,
    Char.reduceEq, reduceCtorEq, Bool.true_eq_false, Bool.false_eq_true] at h
  all_goals first
    | (rename_i ih; exact ih _ _ _ h)
    | (cases h; simp)

/-! ## The defaults -/

theorem setDefaults_ARGUMENTS (env : Env) (g : Globals) :
    (setDefaults env g).ARGUMENTS = g.ARGUMENTS := by
  unfold setDefaults
  by_cases h1 : g.ARGUMENTS % 4 ≤ 1 <;> by_cases h2 : g.ARGUMENTS % 2 ≤ 0 <;>
    by_cases h3 : g.ARGUMENTS % 64 ≤ 31 <;> simp [h1, h2, h3]

theorem setDefaults_NUM_GEN (env : Env) (g : Globals) :
    (setDefaults env g).NUM_GEN = if g.ARGUMENTS % 64 ≤ 31 then 31 else g.NUM_GEN := by
  unfold setDefaults
  by_cases h1 : g.ARGUMENTS % 4 ≤ 1 <;> by_cases h2 : g.ARGUMENTS % 2 ≤ 0 <;>
    by_cases h3 : g.ARGUMENTS % 64 ≤ 31 <;> simp [h1, h2, h3]

theorem setDefaults_RULE (env : Env) (g : Globals) (h : g.ARGUMENTS % 2 > 0) :
    (setDefaults env g).RULE = g.RULE := by
  have h2 : ¬ g.ARGUMENTS % 2 ≤ 0 := by omega
  unfold setDefaults
  by_cases h1 : g.ARGUMENTS % 4 ≤ 1 <;> by_cases h3 : g.ARGUMENTS % 64 ≤ 31 <;>
    simp [h1, h2, h3]

theorem setDefaults_POP (env : Env) (g : Globals) (h : g.ARGUMENTS % 4 > 1) :
    (setDefaults env g).POP = g.POP := by
  have h1 : ¬ g.ARGUMENTS % 4 ≤ 1 := by omega
  unfold setDefaults
  by_cases h2 : g.ARGUMENTS % 2 ≤ 0 <;> by_cases h3 : g.ARGUMENTS % 64 ≤ 31 <;>
    simp [h1, h2, h3]

/-! ## Accepted argument lists -/

theorem init_flags_lt : ({ Globals.init with ARGUMENTS := 0 } : Globals).ARGUMENTS < 64 := by
  decide

/-- The run of `main` on an argument list that it accepts: generation starts in
the state `setDefaults env g` and emits `NUM_GEN + 1` populations. -/
theorem main_runs (env : Env) (args : List (List Char)) (g : Globals) (out : List Event)
    (hacc : argLoop env args { Globals.init with ARGUMENTS := 0 } [] = Outcome.next g out)
    (hqv : ¬ (g.ARGUMENTS % 16 > 7 ∧ g.ARGUMENTS % 8 > 3)) :
    ∃ pops : Nat → Nat,
      pops 0 = (setDefaults env g).POP ∧
      main env args
        = Outcome.exit 0 { setDefaults env g with POP := pops (setDefaults env g).NUM_GEN }
            (out ++ verboseHeader (setDefaults env g)
              ++ (List.range ((setDefaults env g).NUM_GEN + 1)).map
                  (fun k => printpop { setDefaults env g with POP := pops k })) := by
  rw [main_of_next env args g out hacc, if_neg hqv]
  generalize setDefaults env g = d
  obtain ⟨P, R, N, O1, O2, A⟩ := d
  generalize hf : stepPOP R = f
  have hf1 : ∀ Q, stepPOP R Q = f Q := fun Q => by rw [hf]
  refine ⟨fun k => f^[k] P, rfl, ?_⟩
  rw [generate_spec f R N A O1 O2 hf1 P]

/-- An accepted argument list makes `main` emit `NUM_GEN + 1` populations. -/
theorem main_emitted (env : Env) (args : List (List Char)) (g : Globals) (out : List Event)
    (hacc : argLoop env args { Globals.init with ARGUMENTS := 0 } [] = Outcome.next g out)
    (hqv : ¬ (g.ARGUMENTS % 16 > 7 ∧ g.ARGUMENTS % 8 > 3)) :
    emitted (main env args).events = (setDefaults env g).NUM_GEN + 1 := by
  obtain ⟨pops, _, hmain⟩ := main_runs env args g out hacc hqv
  have hout : emitted out = 0 := by
    have := argLoop_emitted env args { Globals.init with ARGUMENTS := 0 } []
    rw [hacc] at this
    exact this
  have hhead : emitted (verboseHeader (setDefaults env g)) = 0 := by
    unfold verboseHeader
    split <;> rfl
  rw [hmain]
  show emitted (_ ++ _ ++ _) = _
  rw [emitted_append, emitted_append, hout, hhead,
    emitted_map_printpop (fun k => { setDefaults env g with POP := pops k })]
  omega

/-- An argument list in which `-q` is read as an option, if the loop reads it
to its end, leaves the quiet flag set. -/
theorem quiet_flag_of_option (env : Env) (args : List (List Char)) (g : Globals)
    (out : List Event)
    (hacc : argLoop env args { Globals.init with ARGUMENTS := 0 } [] = Outcome.next g out)
    (hq : ReadsAsOption env args ['-', 'q']) : g.ARGUMENTS % 8 > 3 := by
  obtain ⟨pre, post, g0, out0, hargs, hpre⟩ := hq
  subst hargs
  have hlt := argLoop_flags_lt env pre _ _ g0 out0 hpre init_flags_lt
  rw [argLoop_append env _ pre _ _ g0 out0 hpre, argLoop_quiet_step] at hacc
  by_cases hd : g0.ARGUMENTS % 8 > 3
  · rw [if_pos hd] at hacc
    cases hacc
  · rw [if_neg hd] at hacc
    exact argLoop_keeps_quiet env post _ _ g out hacc
      (by simp only [addFlag, u8]; omega) (by simp only [addFlag, u8]; omega)

/-- An argument list in which `-v` is read as an option, if the loop reads it
to its end, leaves the verbose flag set. -/
theorem verbose_flag_of_option (env : Env) (args : List (List Char)) (g : Globals)
    (out : List Event)
    (hacc : argLoop env args { Globals.init with ARGUMENTS := 0 } [] = Outcome.next g out)
    (hv : ReadsAsOption env args ['-', 'v']) : g.ARGUMENTS % 16 > 7 := by
  obtain ⟨pre, post, g0, out0, hargs, hpre⟩ := hv
  subst hargs
  have hlt := argLoop_flags_lt env pre _ _ g0 out0 hpre init_flags_lt
  rw [argLoop_append env _ pre _ _ g0 out0 hpre, argLoop_verbose_step] at hacc
  by_cases hd : g0.ARGUMENTS % 16 > 7
  · rw [if_pos hd] at hacc
    cases hacc
  · rw [if_neg hd] at hacc
    exact argLoop_keeps_verbose env post _ _ g out hacc
      (by simp only [addFlag, u8]; omega) (by simp only [addFlag, u8]; omega)

theorem readparam_value_of_numeral (p : List Char) (hnum : isNumeral p = true)
    (hok : ¬ (readparam p).1 = -1) : (readparam p).2 = numeralValue p := by
  by_cases hfit : numeralValue p ≤ 4294967295
  · rw [(readparam_numeral p hnum).1 hfit]
  · exact absurd ((readparam_numeral p hnum).2 (by omega)) hok

/-- An accepted argument list in which `-n` is read as an option with a decimal
numeral as parameter ends the loop with the `-n` flag set and `NUM_GEN` equal to
the numeral. -/
theorem numgen_of_option (env : Env) (pre post : List (List Char)) (p : List Char)
    (g g0 : Globals) (out out0 : List Event)
    (hacc : argLoop env (pre ++ ['-', 'n'] :: p :: post) { Globals.init with ARGUMENTS := 0 } []
      = Outcome.next g out)
    (hpre : argLoop env pre { Globals.init with ARGUMENTS := 0 } [] = Outcome.next g0 out0)
    (hnum : isNumeral p = true) :
    g.ARGUMENTS % 64 > 31 ∧ g.NUM_GEN = numeralValue p := by
  have hlt := argLoop_flags_lt env pre _ _ g0 out0 hpre init_flags_lt
  rw [argLoop_append env _ pre _ _ g0 out0 hpre, argLoop_numgen_step] at hacc
  by_cases hd : g0.ARGUMENTS % 64 > 31
  · rw [if_pos hd] at hacc
    cases hacc
  · rw [if_neg hd] at hacc
    by_cases hr : (readparam p).1 = -1
    · rw [if_pos hr] at hacc
      cases hacc
    · rw [if_neg hr] at hacc
      have h := argLoop_keeps_numgen env post _ _ g out hacc
        (by simp only [addFlag, u8]; omega) (by simp only [addFlag, u8]; omega)
      exact ⟨h.1, by rw [h.2]; exact readparam_value_of_numeral p hnum hr⟩

/-- An accepted argument list in which `-r` is read as an option with a decimal
numeral as parameter ends the loop with the `-r` flag set and `RULE` equal to
the numeral. -/
theorem rule_of_option (env : Env) (pre post : List (List Char)) (p : List Char)
    (g g0 : Globals) (out out0 : List Event)
    (hacc : argLoop env (pre ++ ['-', 'r'] :: p :: post) { Globals.init with ARGUMENTS := 0 } []
      = Outcome.next g out)
    (hpre : argLoop env pre { Globals.init with ARGUMENTS := 0 } [] = Outcome.next g0 out0)
    (hnum : isNumeral p = true) :
    g.ARGUMENTS % 2 > 0 ∧ g.RULE = numeralValue p := by
  have hlt := argLoop_flags_lt env pre _ _ g0 out0 hpre init_flags_lt
  rw [argLoop_append env _ pre _ _ g0 out0 hpre, argLoop_rule_step] at hacc
  by_cases hd : g0.ARGUMENTS % 2 > 0
  · rw [if_pos hd] at hacc
    cases hacc
  · rw [if_neg hd] at hacc
    by_cases hr : (readparam p).1 = -1 ∨ (readparam p).2 > 255
    · rw [if_pos hr] at hacc
      cases hacc
    · rw [if_neg hr] at hacc
      have hr1 : ¬ (readparam p).1 = -1 := fun e => hr (Or.inl e)
      have hr2 : ¬ (readparam p).2 > 255 := fun e => hr (Or.inr e)
      have hu : u8 (readparam p).2 = (readparam p).2 := by
        unfold u8; exact Nat.mod_eq_of_lt (by omega)
      have h := argLoop_keeps_rule env post _ _ g out hacc
        (by simp only [addFlag, u8]; omega) (by simp only [addFlag, u8]; omega)
      refine ⟨h.1, ?_⟩
      rw [h.2]
      show u8 (readparam p).2 = _
      rw [hu]
      exact readparam_value_of_numeral p hnum hr1

/-- An accepted argument list in which `-p` is read as an option with a decimal
numeral as parameter ends the loop with the `-p` flag set and `POP` equal to
the numeral. -/
theorem pop_of_option (env : Env) (pre post : List (List Char)) (p : List Char)
    (g g0 : Globals) (out out0 : List Event)
    (hacc : argLoop env (pre ++ ['-', 'p'] :: p :: post) { Globals.init with ARGUMENTS := 0 } []
      = Outcome.next g out)
    (hpre : argLoop env pre { Globals.init with ARGUMENTS := 0 } [] = Outcome.next g0 out0)
    (hnum : isNumeral p = true) :
    g.ARGUMENTS % 4 > 1 ∧ g.POP = numeralValue p := by
  have hlt := argLoop_flags_lt env pre _ _ g0 out0 hpre init_flags_lt
  rw [argLoop_append env _ pre _ _ g0 out0 hpre, argLoop_pop_step] at hacc
  by_cases hd : g0.ARGUMENTS % 4 > 1
  · rw [if_pos hd] at hacc
    cases hacc
  · rw [if_neg hd] at hacc
    by_cases hr : (readparam p).1 = -1
    · rw [if_pos hr] at hacc
      cases hacc
    · rw [if_neg hr] at hacc
      have h := argLoop_keeps_pop env post _ _ g out hacc
        (by simp only [addFlag, u8]; omega) (by simp only [addFlag, u8]; omega)
      exact ⟨h.1, by rw [h.2]; exact readparam_value_of_numeral p hnum hr⟩

/-! ## Defaults and supplied values -/

/-- C13. For every argument list that `main` accepts (the argument loop reads
it to its end and quiet and verbose are not both set), generation starts in the
state `setDefaults env g`; there `NUM_GEN` is 31 if no `-n` option was read, and
it is `N` if `-n` was read as an option with the decimal numeral `N`; likewise
`RULE` and `POP` are the numerals supplied with a `-r` or `-p` option, not
random values. -/
theorem defaults_respect_supplied_values (env : Env) (args : List (List Char)) (g : Globals)
    (out : List Event)
    (hacc : argLoop env args { Globals.init with ARGUMENTS := 0 } [] = Outcome.next g out)
    (hqv : ¬ (g.ARGUMENTS % 16 > 7 ∧ g.ARGUMENTS % 8 > 3)) :
    (∃ pops : Nat → Nat,
      pops 0 = (setDefaults env g).POP ∧
      main env args
        = Outcome.exit 0 { setDefaults env g with POP := pops (setDefaults env g).NUM_GEN }
            (out ++ verboseHeader (setDefaults env g)
              ++ (List.range ((setDefaults env g).NUM_GEN + 1)).map
                  (fun k => printpop { setDefaults env g with POP := pops k }))) ∧
      ((∀ a, ReadsAsOption env args a → ¬ (charAt a 0 = '-' ∧ charAt a 1 = 'n')) →
        (setDefaults env g).NUM_GEN = 31) ∧
      (∀ pre p post g0 out0, args = pre ++ ['-', 'n'] :: p :: post →
        argLoop env pre { Globals.init with ARGUMENTS := 0 } [] = Outcome.next g0 out0 →
        isNumeral p = true → (setDefaults env g).NUM_GEN = numeralValue p) ∧
      (∀ pre p post g0 out0, args = pre ++ ['-', 'r'] :: p :: post →
        argLoop env pre { Globals.init with ARGUMENTS := 0 } [] = Outcome.next g0 out0 →
        isNumeral p = true → (setDefaults env g).RULE = numeralValue p) ∧
      (∀ pre p post g0 out0, args = pre ++ ['-', 'p'] :: p :: post →
        argLoop env pre { Globals.init with ARGUMENTS := 0 } [] = Outcome.next g0 out0 →
        isNumeral p = true → (setDefaults env g).POP = numeralValue p) := by
  refine ⟨main_runs env args g out hacc hqv, ?_, ?_, ?_, ?_⟩
  · intro hno
    have hclear : g.ARGUMENTS % 64 ≤ 31 := by
      by_contra hset
      obtain ⟨pre, a, post, g2, out2, hargs, hpre, ha0, ha1⟩ :=
        argLoop_numgen_flag_from_option env args _ _ g out hacc init_flags_lt (by decide)
          (by omega)
      exact hno a ⟨pre, post, g2, out2, hargs, hpre⟩ ⟨ha0, ha1⟩
    rw [setDefaults_NUM_GEN, if_pos hclear]
  · intro pre p post g0 out0 hargs hpre hnum
    subst hargs
    have h := numgen_of_option env pre post p g g0 out out0 hacc hpre hnum
    have hset : ¬ g.ARGUMENTS % 64 ≤ 31 := by omega
    rw [setDefaults_NUM_GEN, if_neg hset, h.2]
  · intro pre p post g0 out0 hargs hpre hnum
    subst hargs
    have h := rule_of_option env pre post p g g0 out out0 hacc hpre hnum
    rw [setDefaults_RULE env g h.1, h.2]
  · intro pre p post g0 out0 hargs hpre hnum
    subst hargs
    have h := pop_of_option env pre post p g g0 out out0 hacc hpre hnum
    rw [setDefaults_POP env g h.1, h.2]

theorem defaults_respect_supplied_values_witness :
    argLoop ⟨fun _ => true, 7, 9, 11⟩ [['-', 'n'], ['5']] { Globals.init with ARGUMENTS := 0 } []
        = Outcome.next { Globals.init with ARGUMENTS := 32, NUM_GEN := 5 } [] ∧
      ¬ ((32 : Nat) % 16 > 7 ∧ (32 : Nat) % 8 > 3) ∧
      (setDefaults ⟨fun _ => true, 7, 9, 11⟩
          { Globals.init with ARGUMENTS := 32, NUM_GEN := 5 }).NUM_GEN = numeralValue ['5'] :=
  ⟨by decide, by decide,
   (defaults_respect_supplied_values ⟨fun _ => true, 7, 9, 11⟩ [['-', 'n'], ['5']]
      { Globals.init with ARGUMENTS := 32, NUM_GEN := 5 } [] (by decide) (by decide)).2.2.1
      [] ['5'] [] { Globals.init with ARGUMENTS := 0 } [] rfl (by decide) (by decide)⟩

/-! ## Quiet and verbose -/

/-- C14, as it stands, fails: the argument list `-o -q -v` contains both `-q`
and `-v`, but `-q` is taken as the name of the output file, and `main` runs 32
generations in verbose mode. -/
theorem quiet_as_file_name_runs :
    ['-', 'q'] ∈ [['-', 'o'], ['-', 'q'], ['-', 'v']] ∧
      ['-', 'v'] ∈ [['-', 'o'], ['-', 'q'], ['-', 'v']] ∧
      emitted (main ⟨fun _ => true, 0, 0, 0⟩ [['-', 'o'], ['-', 'q'], ['-', 'v']]).events
        = 32 :=
  ⟨by decide, by decide,
   (main_emitted ⟨fun _ => true, 0, 0, 0⟩ [['-', 'o'], ['-', 'q'], ['-', 'v']]
      { addFlag (addFlag { Globals.init with ARGUMENTS := 0 } 16) 8 with
        OUTFILE := some ['-', 'q'], OUTFILENAME := some ['-', 'q'] } []
      (by decide) (by decide)).trans (by decide)⟩

/-- C14, amended. For every argument list in which both `-q` and `-v` are read
as options, and on which the argument loop does not end by reading a missing
`-n` parameter, `main` prints the help last and returns without emitting a
population.  And whenever `main` emits a population, the loop has ended with
the quiet and verbose flags not both set, and generation runs with those
flags. -/
theorem quiet_verbose_exclusive (env : Env) (args : List (List Char)) :
    (ReadsAsOption env args ['-', 'q'] → ReadsAsOption env args ['-', 'v'] →
      (∀ g out, argLoop env args { Globals.init with ARGUMENTS := 0 } [] ≠ Outcome.fault g out) →
      ∃ code g1 out1, main env args = Outcome.exit code g1 out1 ∧
        out1.getLast? = some Event.help ∧ emitted out1 = 0) ∧
      (emitted (main env args).events > 0 →
        ∃ g out, argLoop env args { Globals.init with ARGUMENTS := 0 } [] = Outcome.next g out ∧
          ¬ (g.ARGUMENTS % 16 > 7 ∧ g.ARGUMENTS % 8 > 3) ∧
          (setDefaults env g).ARGUMENTS = g.ARGUMENTS ∧
          emitted (main env args).events = (setDefaults env g).NUM_GEN + 1) := by
  have hem := argLoop_emitted env args { Globals.init with ARGUMENTS := 0 } []
  constructor
  · intro hq hv hnf
    cases hres : argLoop env args { Globals.init with ARGUMENTS := 0 } [] with
    | next g out =>
      rw [hres] at hem
      have h1 := quiet_flag_of_option env args g out hres hq
      have h2 := verbose_flag_of_option env args g out hres hv
      refine ⟨1, g, out ++ [Event.say Msg.quietAndVerbose, Event.help], ?_, ?_, ?_⟩
      · rw [main_of_next env args g out hres, if_pos ⟨h2, h1⟩]
      · simp
      · rw [emitted_append]
        have : emitted out = 0 := hem
        rw [this]
        rfl
    | exit code g1 out1 =>
      rw [hres] at hem
      exact ⟨code, g1, out1, main_of_exit env args code g1 out1 hres,
        argLoop_exit_help env args _ _ code g1 out1 hres, hem⟩
    | fault g1 out1 =>
      exact absurd hres (hnf g1 out1)
  · intro hpos
    cases hres : argLoop env args { Globals.init with ARGUMENTS := 0 } [] with
    | next g out =>
      rw [hres] at hem
      have hout : emitted out = 0 := hem
      by_cases hqv : g.ARGUMENTS % 16 > 7 ∧ g.ARGUMENTS % 8 > 3
      · rw [main_of_next env args g out hres, if_pos hqv] at hpos
        have : emitted (out ++ [Event.say Msg.quietAndVerbose, Event.help]) = 0 := by
          rw [emitted_append, hout]
          rfl
        have hpos2 : emitted (out ++ [Event.say Msg.quietAndVerbose, Event.help]) > 0 := hpos
        omega
      · exact ⟨g, out, rfl, hqv, setDefaults_ARGUMENTS env g,
          main_emitted env args g out hres hqv⟩
    | exit code g1 out1 =>
      rw [hres] at hem
      rw [main_of_exit env args code g1 out1 hres] at hpos
      have h0 : emitted out1 = 0 := hem
      have hpos2 : emitted out1 > 0 := hpos
      omega
    | fault g1 out1 =>
      rw [hres] at hem
      rw [main_of_fault env args g1 out1 hres] at hpos
      have h0 : emitted out1 = 0 := hem
      have hpos2 : emitted out1 > 0 := hpos
      omega

theorem quiet_verbose_exclusive_witness :
    ReadsAsOption ⟨fun _ => true, 0, 0, 0⟩ [['-', 'q'], ['-', 'v']] ['-', 'q'] ∧
      ReadsAsOption ⟨fun _ => true, 0, 0, 0⟩ [['-', 'q'], ['-', 'v']] ['-', 'v'] ∧
      ∃ code g1 out1,
        main ⟨fun _ => true, 0, 0, 0⟩ [['-', 'q'], ['-', 'v']] = Outcome.exit code g1 out1 ∧
          out1.getLast? = some Event.help ∧ emitted out1 = 0 :=
  have hq : ReadsAsOption ⟨fun _ => true, 0, 0, 0⟩ [['-', 'q'], ['-', 'v']] ['-', 'q'] :=
    ⟨[], [['-', 'v']], { Globals.init with ARGUMENTS := 0 }, [], rfl, rfl⟩
  have hv : ReadsAsOption ⟨fun _ => true, 0, 0, 0⟩ [['-', 'q'], ['-', 'v']] ['-', 'v'] :=
    ⟨[['-', 'q']], [], addFlag { Globals.init with ARGUMENTS := 0 } 4, [], rfl, by decide⟩
  have hres : argLoop ⟨fun _ => true, 0, 0, 0⟩ [['-', 'q'], ['-', 'v']]
      { Globals.init with ARGUMENTS := 0 } []
      = Outcome.next { Globals.init with ARGUMENTS := 12 } [] := by decide
  ⟨hq, hv,
   (quiet_verbose_exclusive ⟨fun _ => true, 0, 0, 0⟩ [['-', 'q'], ['-', 'v']]).1 hq hv
     (fun g out h => by rw [hres] at h; cases h)⟩

end Ecell
